import Mathlib

/-!
Verification development for the `simpleh5` columnar table store.

The Python source (`simpleh5/h5colstore.py`, `simpleh5/utilities/serialize_utilities.py`,
`pyh5column/utilities/search_utilities.py`) is shallowly embedded below:

* column arrays are `List Cell`, where a `Cell` is either a 64-bit number
  (`Cell.num`, covering the `i`/`f`/`n` dtypes; floats follow exactly the same
  control flow as integers in every routine modelled here) or a byte string
  (`Cell.bytes`, the logical stored value of an `s`/`o`/`c` cell after the
  backend's trailing-NUL stripping);
* a table is its persisted dtype map (`col_dtype` attribute), its optional
  flavor map (`col_flavor` attribute) and its column nodes, all as association
  lists keyed by column name in insertion order (Python dicts preserve
  insertion order);
* the pytables backend primitives (row read/write by index, append, truncate)
  act on the `List Cell` directly; Python's negative-index semantics are kept
  (`pyIdx`);
* the external `msgpack`/`blosc` libraries used by the codec are abstracted as
  functions supplied with their documented contracts (see the codec section).

Fallible code returns `Option`/pairs with an error component mirroring the
`raise` statements of the source.
-/

namespace SimpleH5

/-- Association-list lookup, mirroring Python `dict[key]` / `dict.get(key)`. -/
def lookup {β : Type} (l : List (String × β)) (k : String) : Option β :=
  (l.find? (fun p => p.1 == k)).map (·.2)

/-- Overwrite the value stored under a key (no-op if the key is absent),
mirroring assignment to an existing dict entry / rewriting an existing node. -/
def setCol {β : Type} : List (String × β) → String → β → List (String × β)
  | [], _, _ => []
  | a :: l, k, v => (if a.1 = k then (a.1, v) else a) :: setCol l k v

/-- Python `sorted(set(x))` for a list of row indices. -/
def sortedSet (l : List Nat) : List Nat :=
  List.insertionSort (· ≤ ·) l.dedup

/-- Python `range(a, b)` over integers (empty when `b ≤ a`). -/
def intRange (a b : Int) : List Int :=
  (List.range (b - a).toNat).map (fun k : Nat => a + (k : Int))

/-- Resolve a (possibly negative) Python sequence index against a length. -/
def pyIdx (len : Nat) (i : Int) : Option Nat :=
  if 0 ≤ i then (if i < (len : Int) then some i.toNat else none)
  else if 0 ≤ i + (len : Int) then some (i + (len : Int)).toNat else none

/-- `node[i]` for a pytables array: read one row, Python index semantics. -/
def pyGet {α : Type} (l : List α) (i : Int) : Option α :=
  (pyIdx l.length i).bind (fun n => l[n]?)

/-- `node[i] = v` for a pytables array: write one row, Python index semantics. -/
def pySet {α : Type} (l : List α) (i : Int) (v : α) : Option (List α) :=
  (pyIdx l.length i).map (fun n => l.set n v)

/-- The row-move loop of `_remove_array_rows`:
`for i in range(len(move_rows)): node[replace_rows[i]] = node[move_rows[i]]`,
executed sequentially against the live array. -/
def applyMoves {α : Type} : List α → List (Nat × Int) → Option (List α)
  | node, [] => some node
  | node, (r, m) :: rest =>
    (pyGet node m).bind fun v =>
      (pySet node (r : Int) v).bind fun node' => applyMoves node' rest

/-- The planning part of `_remove_array_rows` (h5colstore.py lines 874-887):
computes `replace_rows` (vacated slots to fill) and `move_rows` (tail rows that
must be relocated), for an array of length `nodeLen`.  `last_row` is computed
over ℤ exactly as Python does. -/
def removePlan (nodeLen : Nat) (rmRows : List Nat) : List Nat × List Int :=
  let rm : List Nat := sortedSet rmRows
  let numRm : Nat := rm.length
  let lastRow : Int := (nodeLen : Int) - (numRm : Int)
  let dontWorry : List Int :=
    (rm.filter (fun r : Nat => lastRow ≤ (r : Int))).map (fun r : Nat => (r : Int))
  let moveRows : List Int := (intRange lastRow (nodeLen : Int)).filter (fun r => !(dontWorry.contains r))
  let replaceRows : List Nat := rm.filter (fun r => decide ((r : Int) < lastRow))
  (replaceRows, moveRows)

/-- `_remove_array_rows(node, rm_rows)` (h5colstore.py lines 860-896): move the
minimal set of surviving tail rows into the vacated slots, then truncate.
`none` models the `raise` on a move/replace length mismatch, an out-of-range
row write, or an invalid truncation. -/
def removeArrayRows {α : Type} (node : List α) (rmRows : List Nat) : Option (List α) :=
  let numRm := (sortedSet rmRows).length
  let plan := removePlan node.length rmRows
  let replaceRows := plan.1
  let moveRows := plan.2
  if moveRows.length ≠ replaceRows.length then none
  else
    (applyMoves node (replaceRows.zip moveRows)).bind fun node' =>
      if (node'.length : Int) - (numRm : Int) < 0 then none
      else some (node'.take (node'.length - numRm))

/-! ## Data model: cells, dtypes, tables -/

/-- One stored cell.  `num` covers the `i`/`f`/`n` numeric dtypes (floats
follow the same control flow as integers in every routine modelled here);
`bytes` is the logical byte-string value of an `s`/`o`/`c` cell. -/
inductive Cell : Type
  | num (v : Int)
  | bytes (b : List Nat)
  deriving DecidableEq, Repr

/-- The column-dtype grammar `i | f | n | s<N> | o<N> | c<N>`
(h5colstore.py docstring of `create_ctable`). -/
inductive Dtype : Type
  | i | f | n
  | s (w : Nat)
  | o (w : Nat)
  | c (w : Nat)
  deriving DecidableEq, Repr

/-- `re.match(r'[osc](\d+)', coldtype)`: the declared width for a
string/object/compressed-object dtype, `none` for numeric dtypes. -/
def Dtype.oscWidth : Dtype → Option Nat
  | .s w => some w
  | .o w => some w
  | .c w => some w
  | _ => none

/-- Byte length of a cell as seen by `np.array(data).dtype` (the `S<N>`
itemsize contribution of one element). -/
def cellLen : Cell → Nat
  | .bytes b => b.length
  | .num _ => 0

/-- The `S<N>` itemsize of `np.array(data)` for a batch of byte cells:
the maximum element length. -/
def dataWidth (data : List Cell) : Nat :=
  (data.map cellLen).foldr max 0

/-- A column table as persisted in the `.h5` file: the `col_dtype` attribute,
the optional `col_flavor` attribute (`true` = numpy flavor), and the column
array nodes, keyed by column name in insertion order. -/
structure Table : Type where
  coldt : List (String × Dtype)
  flavor : Option (List (String × Bool))
  cols : List (String × List Cell)
  deriving DecidableEq, Repr

/-! ## Codec (`serialize_utilities.py`)

`msgpack.packb`/`msgpack.unpackb` and `blosc.compress`/`blosc.decompress` are
external libraries, abstracted as functions together with their documented
contracts (deserialisation inverts serialisation, decompression inverts
compression).  The repository's own code is the sentinel-byte framing. -/

/-- `msgpack_dumps(x, compress)` (serialize_utilities.py lines 36-42):
serialize, optionally compress, then append the single sentinel byte `b'1'`
(0x31). -/
def msgpack_dumps {V : Type} (packb : V → List Nat) (compressB : List Nat → List Nat)
    (compress : Bool) (x : V) : List Nat :=
  let data := packb x
  if compress then compressB data ++ [49] else data ++ [49]

/-- `msgpack_loads(x, compress)` (serialize_utilities.py lines 45-51):
strip exactly one trailing byte (`x[:-1]`), optionally decompress, then
deserialize. -/
def msgpack_loads {V : Type} (unpackb : List Nat → Option V)
    (decompressB : List Nat → List Nat) (compress : Bool) (x : List Nat) : Option V :=
  if compress then unpackb (decompressB x.dropLast) else unpackb x.dropLast

/-- What the backend's fixed-width byte-string storage does to a written blob:
trailing zero bytes are stripped on read (pytables `StringAtom` semantics). -/
def rstripZeros (b : List Nat) : List Nat :=
  (b.reverse.dropWhile (· == 0)).reverse

/-! ## `_safe_col_str_change` (h5colstore.py lines 934-984)

Takes the persisted dtype map, the column to (possibly) rewrite, the stale
dtype string under which the caller is operating, the converted batch, and the
`resize` flag.  Returns the new column node contents, the new persisted dtype
map, and the error raised, if any — the state components are meaningful even
when an error is raised, because the metadata-update crash for `c` dtypes
happens *after* the widened array has been swapped in. -/

/-- `re.match(r'([os])', ...)` followed by `f'{m.group(1)}{new_len}'`:
rebuild the dtype string at the new width.  The pattern accepts only `o` and
`s`; for a `c` dtype `m` is `None` and `m.group(1)` raises `AttributeError`,
modelled as `none`. -/
def updateDtypeOS : Dtype → Nat → Option Dtype
  | .s _, n => some (.s n)
  | .o _, n => some (.o n)
  | _, _ => none

/-- The row-by-row copy loop
`for idx, row in enumerate(colnode.iterrows()): newcolnode.append([row])`. -/
def copyRows (col : List Cell) : List Cell :=
  col.foldl (fun acc row => acc ++ [row]) []

/-- `re.search(r's(\d+)', str(data.dtype).lower())`: the itemsize of the
converted batch when it is a byte-string (`S<N>`) array — the maximum element
length for a nonempty all-bytes batch — and `none` (the source raises)
otherwise. -/
def npSWidth (data : List Cell) : Option Nat :=
  if data ≠ [] ∧ data.all (fun c => match c with | .bytes _ => true | .num _ => false)
  then some (dataWidth data) else none

def safeColStrChange (coldt : List (String × Dtype)) (colName : String)
    (col : List Cell) (dt : Dtype) (data : List Cell) (resize : Bool) :
    (List Cell × List (String × Dtype)) × Option String :=
  match dt.oscWidth with
  | none => ((col, coldt), some "Col dtype should be [osc] and is not")
  | some size =>
    match npSWidth data with
    | none => ((col, coldt), some "Data in column should be similar to coldtype")
    | some dlen =>
    if size < dlen then
      if !resize then ((col, coldt), some "Data corruption happening")
      else
        -- rewrite into a new array of width `dlen`, swap it in place
        let newcol := copyRows col
        -- update attributes: col_dtypes[colname] then re.match(r'([os])', ...)
        match lookup coldt colName with
        | none => ((newcol, coldt), some "KeyError: colname not in col_dtypes")
        | some cur =>
          match updateDtypeOS cur dlen with
          | none => ((newcol, coldt), some "AttributeError: NoneType has no attribute group")
          | some newDt => ((newcol, setCol coldt colName newDt), none)
    else ((col, coldt), none)

/-! ## `_convert_data` and the append path (`_append_ctable`, lines 562-643)

`encC`/`encO` abstract `msgpack_dumps(·, compress=True/False)` applied to one
element (the external codec; its only property used by the table engine is
that it maps one element to one stored cell).  `wr` is the backend write
outcome for each column's `colnode.append(data)` call: `none` means the append
succeeds in full, `some j` means the backend fails after persisting `j` rows
(the per-column loop catches every exception). -/

/-- `_convert_data(data, coldtype)` (lines 645-659): `c`/`o` dtypes are
element-wise codec-encoded; all other dtypes pass through (the `np.array` /
utf-8 step is length- and value-preserving in the cell model, where text is
already held as its utf-8 bytes). -/
def convertData (encC encO : Cell → Cell) (dt : Dtype) (data : List Cell) : List Cell :=
  match dt with
  | .c _ => data.map encC
  | .o _ => data.map encO
  | _ => data

/-- Loop state of the per-column append loop: the column nodes and the
persisted `col_dtype` attribute (which widening updates on disk). -/
structure LoopSt : Type where
  cols : List (String × List Cell)
  coldt : List (String × Dtype)
  deriving Repr

/-- `colnode.append(data)` under the backend write outcome `wr`: on success
all rows are appended; on `some j` the backend persisted `j` rows and raised. -/
def wrAppend (wr : String → Option Nat) (col : String) (cur data : List Cell) :
    List Cell × Option String :=
  match wr col with
  | none => (cur ++ data, none)
  | some j => (cur ++ data.take j, some "backend append failed")

/-- One iteration of the append loop body (lines 615-626) for column `col`
with its (stale, read-at-entry) dtype `dt`. -/
def writeOneCol (encC encO : Cell → Cell) (resize : Bool) (wr : String → Option Nat)
    (colData : List (String × List Cell)) (st : LoopSt) (col : String) (dt : Dtype) :
    LoopSt × Option String :=
  match lookup colData col with
  | none => (st, some "KeyError: col_data[col]")
  | some raw =>
    let data := convertData encC encO dt raw
    match lookup st.cols col with
    | none => (st, some "Table column doesn't exist")
    | some colarr =>
      if (dt.oscWidth).isSome then
        let r := safeColStrChange st.coldt col colarr dt data resize
        match r.2 with
        | some e => (⟨setCol st.cols col r.1.1, r.1.2⟩, some e)
        | none =>
          let w := wrAppend wr col r.1.1 data
          (⟨setCol st.cols col w.1, r.1.2⟩, w.2)
      else
        let w := wrAppend wr col colarr data
        (⟨setCol st.cols col w.1, st.coldt⟩, w.2)

/-- The per-column append loop (`for col, coldtype in coldt.items(): try ...
except: restore = True; break`): iterates over the dtype map read at entry,
stops at the first failure. -/
def appendLoop (encC encO : Cell → Cell) (resize : Bool) (wr : String → Option Nat)
    (colData : List (String × List Cell)) :
    List (String × Dtype) → LoopSt → LoopSt × Option String
  | [], st => (st, none)
  | (col, dt) :: rest, st =>
    match writeOneCol encC encO resize wr colData st col dt with
    | (st', none) => appendLoop encC encO resize wr colData rest st'
    | (st', some e) => (st', some e)

/-- The rollback loop (lines 632-641): every column longer than `prev` rows is
truncated back to `prev` rows by `_remove_array_rows` on the freshly added
index range. -/
def restoreCols (prev : Nat) :
    List (String × Dtype) → List (String × List Cell) → Option (List (String × List Cell))
  | [], cols => some cols
  | (col, _) :: rest, cols =>
    match lookup cols col with
    | none => none
    | some node =>
      let cur := node.length
      if prev < cur then
        match removeArrayRows node (List.range' prev (cur - prev)) with
        | none => none
        | some node' => restoreCols prev rest (setCol cols col node')
      else restoreCols prev rest cols

/-- Errors surfaced by `_append_ctable`, separated by origin so that the
rollback path can be told apart from up-front validation. -/
inductive AErr : Type
  | lenMismatch          -- "column lengths are not equal on append"
  | emptyColData         -- data_lengths[0] IndexError on empty col_data
  | notAllCols           -- "Not all columns specified in col_data"
  | noRowsAttr           -- empty dtype map: _table_info never sets num_rows
  | nodeMissing          -- node.shape on a missing first column
  | loopFail (msg : String)  -- re-raise of the error caught in the column loop
  | restoreFail          -- an exception raised inside the rollback loop itself
  deriving DecidableEq, Repr

/-- The common-length validation at the top of `_append_ctable`
(lines 568-573): every value sequence is compared against the first. -/
def allLenEq (colData : List (String × List Cell)) : Option Nat :=
  match colData with
  | [] => none
  | (_, d) :: rest => if rest.all (fun p => p.2.length == d.length) then some d.length else none

/-- `_set_flavor` (lines 742-753): one flavor entry per *schema* column,
taken from the Python type of `col_data[col]` (`flavOf`, `true` = numpy). -/
def setFlavor (flavOf : String → Bool) (coldt : List (String × Dtype)) :
    List (String × Bool) :=
  coldt.map (fun p => (p.1, flavOf p.1))

/-- `_append_ctable` for an existing table (lines 562-643, the branch where
the table attributes are present).  Returns the persisted state after the
call together with the raised error, if any. -/
def appendCtable (encC encO : Cell → Cell) (resize : Bool) (wr : String → Option Nat)
    (flavOf : String → Bool) (t : Table) (colData : List (String × List Cell)) :
    Table × Option AErr :=
  match allLenEq colData with
  | none =>
    (t, some (if colData = [] then AErr.emptyColData else AErr.lenMismatch))
  | some _ =>
    if t.coldt.any (fun p => (lookup colData p.1).isNone) then (t, some AErr.notAllCols)
    else
      let flav := match t.flavor with
        | some fl => some fl
        | none => some (setFlavor flavOf t.coldt)
      match t.coldt with
      | [] => ({ t with flavor := flav }, some AErr.noRowsAttr)
      | (c0, _) :: _ =>
        match lookup t.cols c0 with
        | none => ({ t with flavor := flav }, some AErr.nodeMissing)
        | some col0 =>
          let prev := col0.length
          let r := appendLoop encC encO resize wr colData t.coldt ⟨t.cols, t.coldt⟩
          match r.2 with
          | none => ({ coldt := r.1.coldt, flavor := flav, cols := r.1.cols }, none)
          | some e =>
            match restoreCols prev t.coldt r.1.cols with
            | none => ({ coldt := r.1.coldt, flavor := flav, cols := r.1.cols }, some AErr.restoreFail)
            | some cols' => ({ coldt := r.1.coldt, flavor := flav, cols := cols' }, some (AErr.loopFail e))

/-! ## Table creation from data (`_create_column_from_data`, lines 789-816)

Text cells and byte cells coincide in the cell model; a first element of
byte-string kind is modelled as structured-object data (dtype tag `o`), which
follows the same length/width computations as the `s` tag.  Numeric columns
get tag `i`; `f` columns follow the identical control flow. -/

def createColumnFromData (encO : Cell → Cell) (colData : List Cell) :
    Option (List Cell × Dtype) :=
  match colData with
  | [] => none  -- data[0] raises IndexError
  | c :: _ =>
    match c with
    | .num _ => some (colData, .i)
    | .bytes _ =>
      let enc := colData.map encO
      some (enc, .o (dataWidth enc))

/-- `_append_ctable` when the table does not yet exist and no dtypes are given
(lines 590-598): create every column from its data, then persist the inferred
dtype map and the flavor map.  `none` as first component models an exception
leaving no complete table behind. -/
def appendCtableNew (encO : Cell → Cell) (flavOf : String → Bool)
    (colData : List (String × List Cell)) : Option Table × Option AErr :=
  match allLenEq colData with
  | none => (none, some (if colData = [] then AErr.emptyColData else AErr.lenMismatch))
  | some _ =>
    match colData.mapM (fun p => (createColumnFromData encO p.2).map (fun r => (p.1, r))) with
    | none => (none, some (AErr.loopFail "column creation failed"))
    | some created =>
      let coldt := created.map (fun q => (q.1, q.2.2))
      (some { coldt := coldt,
              flavor := some (setFlavor flavOf coldt),
              cols := created.map (fun q => (q.1, q.2.1)) }, none)

/-! ## Predicate compiler (`search_utilities.py`)

A query is a list of clauses ANDed together; a clause is a single
`(column, operator, value)` triple or a list of triples ORed together.
`_build_search_string` compiles this to a numexpr string over the in-memory
column buffers and `tb.Expr(...).eval()` returns the boolean mask; the model
evaluates the same AND-of-ORs formula row by row.  String operands are
already held as their utf-8 bytes in the cell model. -/

inductive Oper : Type
  | eq | ne | lt | le | gt | ge
  deriving DecidableEq, Repr

structure Triple : Type where
  col : String
  op : Oper
  val : Cell
  deriving DecidableEq, Repr

inductive Clause : Type
  | single (t : Triple)
  | ors (ts : List Triple)
  deriving DecidableEq, Repr

/-- Lexicographic order on byte strings, as numexpr compares fixed-width
byte-string operands (shorter operand padded with `\0`, the smallest byte). -/
def bytesLt : List Nat → List Nat → Bool
  | [], [] => false
  | [], _ :: _ => true
  | _ :: _, [] => false
  | a :: as, b :: bs => if a < b then true else if b < a then false else bytesLt as bs

def intCmp : Oper → Int → Int → Bool
  | .eq, a, b => a == b
  | .ne, a, b => a != b
  | .lt, a, b => decide (a < b)
  | .le, a, b => decide (a ≤ b)
  | .gt, a, b => decide (b < a)
  | .ge, a, b => decide (b ≤ a)

def bytesCmp : Oper → List Nat → List Nat → Bool
  | .eq, a, b => a == b
  | .ne, a, b => a != b
  | .lt, a, b => bytesLt a b
  | .le, a, b => bytesLt a b || a == b
  | .gt, a, b => bytesLt b a
  | .ge, a, b => bytesLt b a || a == b

/-- One comparison term; `none` models a numexpr type error on mixed
numeric/byte-string operands. -/
def cellCmp (op : Oper) : Cell → Cell → Option Bool
  | .num a, .num b => some (intCmp op a b)
  | .bytes a, .bytes b => some (bytesCmp op a b)
  | _, _ => none

def clauseTriples : Clause → List Triple
  | .single tr => [tr]
  | .ors ts => ts

/-- The column names referenced by a query, as collected into `uservars`. -/
def queryCols (q : List Clause) : List String :=
  ((q.map clauseTriples).flatten).map (·.col)

def evalTripleAt (cols : List (String × List Cell)) (i : Nat) (tr : Triple) : Option Bool :=
  (lookup cols tr.col).bind fun arr => (arr[i]?).bind fun c => cellCmp tr.op c tr.val

/-- One clause of the compiled expression: a parenthesized OR of its terms
(an empty OR would compile to `()`, a numexpr syntax error → `none`). -/
def evalClauseAt (cols : List (String × List Cell)) (i : Nat) : Clause → Option Bool
  | .single tr => evalTripleAt cols i tr
  | .ors [] => none
  | .ors (tr :: trs) =>
    (evalTripleAt cols i tr).bind fun b0 =>
      trs.foldlM (fun acc tr' => (evalTripleAt cols i tr').map (acc || ·)) b0

/-- `_filter_inds(col_dict, query)` (search_utilities.py lines 64-74): compile
the query and evaluate it to a boolean mask over the column buffers.
`none` models the exceptions: `match[0]` on an empty query, a `KeyError` for
a column without a node, or a numexpr type/shape error. -/
def filterInds (cols : List (String × List Cell)) (q : List Clause) : Option (List Bool) :=
  match q with
  | [] => none
  | _ =>
    match (queryCols q).mapM (lookup cols) with
    | none => none
    | some [] => none
    | some (a :: rest) =>
      if rest.all (fun b => b.length == a.length) then
        (List.range a.length).mapM (fun i => (q.mapM (evalClauseAt cols i)).map (·.all id))
      else none

/-- `np.nonzero(mask)[0]`: positions of the true entries, ascending. -/
def nonzero (mask : List Bool) : List Nat :=
  (mask.enum.filter (·.2)).map (·.1)

/-! ## `update_ctable` (h5colstore.py lines 345-408) -/

inductive UErr : Type
  | queryRequired        -- "A query is required for update_ctable"
  | assertEmpty          -- assert len(col_data) > 0
  | lenMismatch          -- "Column data specified is not the same length"
  | queryFail            -- exception inside _filter_inds
  | updateLenMismatch    -- "Update column length different than rows length found in match"
  | keyError (col : String)     -- col_dtype[col] KeyError for a non-schema column
  | nodeMissing (col : String)  -- "Table column doesn't exist"
  | oscFail (msg : String)      -- exception inside _safe_col_str_change
  | writeFail (col : String)    -- colnode[inds] = data raises
  deriving DecidableEq, Repr

/-- `colnode[inds] = data`: numpy fancy assignment at integer positions.
A length-1 value sequence broadcasts to every position; otherwise lengths
must match; out-of-range positions raise. -/
def setAtInds (arr : List Cell) (inds : List Nat) (data : List Cell) : Option (List Cell) :=
  if !(inds.all (· < arr.length)) then none
  else
    match data with
    | [v] => some (inds.foldl (fun a i => a.set i v) arr)
    | _ =>
      if data.length == inds.length then
        some ((inds.zip data).foldl (fun a p => a.set p.1 p.2) arr)
      else none

/-- One iteration of the update loop (lines 392-408).  For a column absent
from the schema the source logs a warning and then evaluates
`col_dtype[col]`, which raises `KeyError`.  `staleColdt` is the dtype map read
once at entry; widening updates the persisted map in `st.coldt`. -/
def updateWriteCol (encC encO : Cell → Cell) (resize : Bool) (inds : List Nat)
    (staleColdt : List (String × Dtype)) (st : LoopSt) (col : String) (raw : List Cell) :
    LoopSt × Option UErr :=
  match lookup staleColdt col with
  | none => (st, some (.keyError col))
  | some dt =>
    let data := convertData encC encO dt raw
    match lookup st.cols col with
    | none => (st, some (.nodeMissing col))
    | some colarr =>
      if (dt.oscWidth).isSome then
        let r := safeColStrChange st.coldt col colarr dt data resize
        let st' : LoopSt := ⟨setCol st.cols col r.1.1, r.1.2⟩
        match r.2 with
        | some e => (st', some (.oscFail e))
        | none =>
          match setAtInds r.1.1 inds data with
          | none => (st', some (.writeFail col))
          | some arr => (⟨setCol st'.cols col arr, st'.coldt⟩, none)
      else
        match setAtInds colarr inds data with
        | none => (st, some (.writeFail col))
        | some arr => (⟨setCol st.cols col arr, st.coldt⟩, none)

/-- The update loop over `col_data.items()`; the first exception propagates
(there is no rollback in `update_ctable`). -/
def updateLoop (encC encO : Cell → Cell) (resize : Bool) (inds : List Nat)
    (staleColdt : List (String × Dtype)) :
    List (String × List Cell) → LoopSt → LoopSt × Option UErr
  | [], st => (st, none)
  | (col, raw) :: rest, st =>
    match updateWriteCol encC encO resize inds staleColdt st col raw with
    | (st', none) => updateLoop encC encO resize inds staleColdt rest st'
    | (st', some e) => (st', some e)

/-- `update_ctable(table_name, query, col_data, resize)`. -/
def updateCtable (encC encO : Cell → Cell) (resize : Bool) (t : Table)
    (q : List Clause) (colData : List (String × List Cell)) : Table × Option UErr :=
  if q = [] then (t, some .queryRequired)
  else if colData = [] then (t, some .assertEmpty)
  else
    match allLenEq colData with
    | none => (t, some .lenMismatch)
    | some changeLen =>
      match filterInds t.cols q with
      | none => (t, some .queryFail)
      | some mask =>
        let inds := nonzero mask
        if changeLen ≠ 1 ∧ changeLen ≠ inds.length then (t, some .updateLenMismatch)
        else
          let r := updateLoop encC encO resize inds t.coldt colData ⟨t.cols, t.coldt⟩
          ({ t with cols := r.1.cols, coldt := r.1.coldt }, r.2)

/-! ## `read_ctable` (h5colstore.py lines 410-520)

Row selection only; the per-column decode step (`msgpack_loads` / utf-8
decode) is an element-wise map over the selected rows and preserves row
counts, so the raw stored cells are returned here. -/

/-- The value of the `inds` variable when data is pulled off disk: either the
caller-supplied integer positions, or the boolean mask that `_filter_inds`
returned (the source passes that mask directly to `node[np.array(inds)]`). -/
inductive Sel : Type
  | nat (l : List Nat)
  | mask (m : List Bool)

/-- `node.read()` when `len(inds) == 0`, otherwise `node[np.array(inds)]`
(integer fancy indexing or boolean-mask selection). -/
def applySel (arr : List Cell) : Sel → Option (List Cell)
  | .nat [] => some arr
  | .nat l => l.mapM (fun i => arr[i]?)
  | .mask [] => some arr
  | .mask m => if m.length == arr.length
      then some (((arr.zip m).filter (·.2)).map (·.1)) else none

/-- `read_ctable(table_name, cols, query, inds)`: `colsReq = []` means no
column filter (Python `cols=None` / `cols=[]`).  `none` models the raised
exceptions. -/
def readCtable (t : Table) (colsReq : List String) (q : List Clause)
    (inds : List Nat) : Option (List (String × List Cell)) :=
  let returnCols := if colsReq = [] then t.coldt.map (·.1)
    else (t.coldt.map (·.1)).filter (colsReq.contains ·)
  let sel? : Option Sel :=
    if q ≠ [] ∧ inds = [] then (filterInds t.cols q).map .mask else some (.nat inds)
  match sel? with
  | none => none
  | some s =>
    returnCols.mapM (fun c =>
      (lookup t.cols c).bind fun arr => (applySel arr s).map (fun v => (c, v)))

/-! ## `delete_rows` (h5colstore.py lines 818-858) -/

inductive DErr : Type
  | bothSpecified     -- "Both query and rows specified"
  | neitherSpecified  -- "Either query/match or rows MUST be specified"
  | queryFail         -- exception inside _filter_inds
  | nodeMissing       -- a schema column without a node
  | removeFail        -- exception inside _remove_array_rows
  deriving DecidableEq, Repr

/-- `for col in col_dtype: ... self._remove_array_rows(node, inds)`. -/
def deleteLoop (inds : List Nat) :
    List (String × Dtype) → List (String × List Cell) →
    List (String × List Cell) × Option DErr
  | [], cols => (cols, none)
  | (c, _) :: rest, cols =>
    match lookup cols c with
    | none => (cols, some .nodeMissing)
    | some arr =>
      match removeArrayRows arr inds with
      | none => (cols, some .removeFail)
      | some arr' => deleteLoop inds rest (setCol cols c arr')

def deleteRows (t : Table) (q : List Clause) (rows : List Nat) : Table × Option DErr :=
  if q ≠ [] ∧ rows ≠ [] then (t, some .bothSpecified)
  else if q = [] ∧ rows = [] then (t, some .neitherSpecified)
  else
    let inds? : Option (List Nat) :=
      if rows ≠ [] then some rows else (filterInds t.cols q).map nonzero
    match inds? with
    | none => (t, some .queryFail)
    | some inds =>
      if inds.length == 0 then (t, none)
      else
        let r := deleteLoop inds t.coldt t.cols
        ({ t with cols := r.1 }, r.2)

/-! ## `add_column` (h5colstore.py lines 161-220) -/

inductive CErr : Type
  | noTable         -- "Addcol needs an existing table"
  | lenMismatch     -- "New column data different length than table"
  | nodeExists      -- create_earray at an existing node path raises
  | createFail      -- exception inside _create_column_from_data
  | oscFail (msg : String)  -- exception inside _safe_col_str_change
  | flavorMissing   -- table_info[ATTR_COLFLAV] KeyError
  deriving DecidableEq, Repr

/-- Persist the new column's dtype and flavor entries (lines 195-206); the
dtype write precedes the flavor read, so a missing flavor attribute raises
after the dtype map was already updated. -/
def addColFinish (t : Table) (colName : String) (dt : Dtype) (arr : List Cell)
    (flavNumpy : Bool) : Table × Option CErr :=
  let t1 : Table :=
    { t with cols := t.cols ++ [(colName, arr)], coldt := t.coldt ++ [(colName, dt)] }
  match t.flavor with
  | none => (t1, some .flavorMissing)
  | some fl => ({ t1 with flavor := some (fl ++ [(colName, flavNumpy)]) }, none)

/-- `add_column(table_path, col_name, col_data, col_dtype, shape)`.
`flavNumpy` is `isinstance(col_data, np.ndarray)`. -/
def addColumn (encC encO : Cell → Cell) (t : Table) (colName : String)
    (colData : List Cell) (dtype? : Option Dtype) (flavNumpy : Bool) : Table × Option CErr :=
  match t.coldt with
  | [] => (t, some .noTable)
  | (c0, _) :: _ =>
    match lookup t.cols c0 with
    | none => (t, some .noTable)
    | some a0 =>
      if a0.length ≠ colData.length then (t, some .lenMismatch)
      else if (lookup t.cols colName).isSome then (t, some .nodeExists)
      else
        match dtype? with
        | some dt =>
          -- _create_column_from_dtype creates an empty node, then _add_column
          -- converts, widens if needed (resize hardcoded True) and appends
          let data := convertData encC encO dt colData
          if (dt.oscWidth).isSome then
            let r := safeColStrChange t.coldt colName [] dt data true
            match r.2 with
            | some e => ({ t with cols := t.cols ++ [(colName, r.1.1)] }, some (.oscFail e))
            | none => addColFinish t colName dt (r.1.1 ++ data) flavNumpy
          else
            addColFinish t colName dt data flavNumpy
        | none =>
          match createColumnFromData encO colData with
          | none => (t, some .createFail)
          | some (arr, dt) => addColFinish t colName dt arr flavNumpy

/-! ## `H5ColStore.__init__` (h5colstore.py lines 39-48) -/

/-- Suffix test on path strings (modelled as character lists). -/
def strEndsWith (s suffix : List Char) : Bool :=
  suffix.isSuffixOf s

/-- `re.search(r'\.h5$', h5file)`: in Python, `$` matches at the end of the
string *or just before a trailing newline*, so the pattern accepts any string
ending in `.h5` or in `.h5\n`. -/
def reSearchH5End (s : List Char) : Bool :=
  strEndsWith s ['.', 'h', '5'] || strEndsWith s ['.', 'h', '5', '\n']

/-- The constructor: a pure function of the path string — it only checks the
extension and stores the path and the default filter settings; no file I/O
happens until an operation is invoked. -/
def h5ColStoreInit (h5file : List Char) : Except String (List Char) :=
  if reSearchH5End h5file then .ok h5file
  else .error "h5file should have a .h5 extension"

/-- The cross-column invariant of the spec: all columns of a table report the
same length. -/
def equalLens (cols : List (String × List Cell)) : Prop :=
  ∀ p ∈ cols, ∀ q ∈ cols, p.2.length = q.2.length

/-! ## Helper lemmas -/

theorem lookup_eq_some_iff {β : Type} {l : List (String × β)} {k : String} {v : β} :
    lookup l k = some v ↔ ∃ p, l.find? (fun p => p.1 == k) = some p ∧ p.2 = v := by
  simp [lookup, Option.map_eq_some']

theorem mem_of_lookup_eq_some {β : Type} {l : List (String × β)} {k : String} {v : β}
    (h : lookup l k = some v) : (k, v) ∈ l := by
  rcases lookup_eq_some_iff.mp h with ⟨p, hp, rfl⟩
  have hmem := List.mem_of_find?_eq_some hp
  have hk := List.find?_some hp
  simp only [beq_iff_eq] at hk
  cases p; simp_all

theorem lookup_cons {β : Type} {a : String × β} {l : List (String × β)} {k : String} :
    lookup (a :: l) k = if a.1 = k then some a.2 else lookup l k := by
  by_cases h : a.1 = k
  · rw [lookup, List.find?_cons_of_pos _ (by simpa using h), if_pos h]; rfl
  · rw [lookup, List.find?_cons_of_neg _ (by simpa using h), if_neg h]; rfl

theorem lookup_isSome_iff {β : Type} {l : List (String × β)} {k : String} :
    (lookup l k).isSome ↔ k ∈ l.map Prod.fst := by
  induction l with
  | nil => simp [lookup]
  | cons a l ih =>
    rw [lookup_cons]
    by_cases h : a.1 = k
    · simp [h]
    · simp only [if_neg h, List.map_cons, List.mem_cons]
      rw [ih]
      constructor
      · exact Or.inr
      · rintro (rfl | hh)
        · exact absurd rfl h
        · exact hh

theorem lookup_eq_none_iff {β : Type} {l : List (String × β)} {k : String} :
    lookup l k = none ↔ k ∉ l.map Prod.fst := by
  rw [← lookup_isSome_iff]
  cases lookup l k <;> simp

theorem lookup_of_nodup_mem {β : Type} {l : List (String × β)} {p : String × β}
    (hnd : (l.map Prod.fst).Nodup) (hp : p ∈ l) : lookup l p.1 = some p.2 := by
  induction l with
  | nil => simp at hp
  | cons a l ih =>
    rw [lookup_cons]
    rcases List.mem_cons.mp hp with rfl | hp'
    · simp
    · have hnd' := hnd
      simp only [List.map_cons, List.nodup_cons] at hnd'
      have hne : ¬ a.1 = p.1 := by
        intro he
        exact hnd'.1 (he ▸ List.mem_map.mpr ⟨p, hp', rfl⟩)
      rw [if_neg hne]
      exact ih hnd'.2 hp'

theorem map_fst_setCol {β : Type} (l : List (String × β)) (k : String) (v : β) :
    (setCol l k v).map Prod.fst = l.map Prod.fst := by
  induction l with
  | nil => rfl
  | cons a l ih =>
    by_cases h : a.1 = k <;> simp [setCol, h, ih]

theorem lookup_setCol_self {β : Type} {l : List (String × β)} {k : String} (v : β)
    (h : k ∈ l.map Prod.fst) : lookup (setCol l k v) k = some v := by
  induction l with
  | nil => simp at h
  | cons a l ih =>
    by_cases ha : a.1 = k
    · simp only [setCol, if_pos ha]
      rw [lookup_cons, if_pos ha]
    · have h' : k ∈ l.map Prod.fst := by
        simp only [List.map_cons, List.mem_cons] at h
        rcases h with h | h
        · exact absurd h.symm ha
        · exact h
      simp only [setCol, if_neg ha]
      rw [lookup_cons, if_neg ha]
      exact ih h'

theorem lookup_setCol_ne {β : Type} {l : List (String × β)} {k k' : String} (v : β)
    (h : k' ≠ k) : lookup (setCol l k v) k' = lookup l k' := by
  induction l with
  | nil => rfl
  | cons a l ih =>
    by_cases ha : a.1 = k
    · have hne : ¬ a.1 = k' := fun he => h (he ▸ ha)
      simp only [setCol, if_pos ha]
      rw [lookup_cons, lookup_cons, if_neg hne, if_neg hne]
      exact ih
    · simp only [setCol, if_neg ha]
      rw [lookup_cons, lookup_cons]
      by_cases hk' : a.1 = k' <;> simp [hk', ih]

theorem setCol_setCol {β : Type} (l : List (String × β)) (k : String) (v w : β) :
    setCol (setCol l k v) k w = setCol l k w := by
  induction l with
  | nil => rfl
  | cons a l ih =>
    by_cases h : a.1 = k
    · simp [setCol, h, ih]
    · simp [setCol, h, ih]

theorem mem_sortedSet {l : List Nat} {a : Nat} : a ∈ sortedSet l ↔ a ∈ l := by
  rw [sortedSet, List.mem_insertionSort, List.mem_dedup]

theorem nodup_sortedSet (l : List Nat) : (sortedSet l).Nodup := by
  rw [sortedSet]
  exact ((List.perm_insertionSort _ _).nodup_iff).mpr (List.nodup_dedup l)

theorem sorted_le_sortedSet (l : List Nat) : (sortedSet l).Sorted (· ≤ ·) :=
  List.sorted_insertionSort _ _

theorem sorted_lt_sortedSet (l : List Nat) : (sortedSet l).Sorted (· < ·) :=
  (sorted_le_sortedSet l).lt_of_le (nodup_sortedSet l)

theorem sortedSet_eq_self {l : List Nat} (hnd : l.Nodup) (hs : l.Sorted (· ≤ ·)) :
    sortedSet l = l := by
  rw [sortedSet, List.dedup_eq_self.mpr hnd]
  exact hs.insertionSort_eq

theorem length_sortedSet_le {l : List Nat} {n : Nat} (h : ∀ a ∈ l, a < n) :
    (sortedSet l).length ≤ n := by
  have hnd := nodup_sortedSet l
  have hsub : ∀ a ∈ sortedSet l, a ∈ List.range n := by
    intro a ha
    exact List.mem_range.mpr (h a (mem_sortedSet.mp ha))
  calc (sortedSet l).length = (sortedSet l).toFinset.card :=
        (List.toFinset_card_of_nodup hnd).symm
    _ ≤ (List.range n).toFinset.card := by
        apply Finset.card_le_card
        intro a ha
        exact List.mem_toFinset.mpr (hsub a (List.mem_toFinset.mp ha))
    _ = n := by rw [List.toFinset_card_of_nodup (List.nodup_range n), List.length_range]

theorem copyRows_eq (col : List Cell) : copyRows col = col := by
  have h : ∀ (acc : List Cell), col.foldl (fun acc row => acc ++ [row]) acc = acc ++ col := by
    induction col with
    | nil => intro acc; simp
    | cons c cs ih => intro acc; simp [List.foldl_cons, ih]
  simpa using h []

theorem safeColStrChange_fst_fst (coldt : List (String × Dtype)) (colName : String)
    (col : List Cell) (dt : Dtype) (data : List Cell) (resize : Bool) :
    (safeColStrChange coldt colName col dt data resize).1.1 = col := by
  rw [safeColStrChange]
  repeat' split
  all_goals first | rfl | exact copyRows_eq col

theorem pySet_length {α : Type} {node node' : List α} {i : Int} {v : α}
    (h : pySet node i v = some node') : node'.length = node.length := by
  rw [pySet] at h
  rcases hi : pyIdx node.length i with _ | n
  · rw [hi] at h; exact absurd h (by simp)
  · rw [hi] at h
    simp only [Option.map_some'] at h
    cases h
    exact List.length_set node n v

theorem applyMoves_length {α : Type} :
    ∀ (pairs : List (Nat × Int)) (node res : List α),
      applyMoves node pairs = some res → res.length = node.length := by
  intro pairs
  induction pairs with
  | nil => intro node res h; simp [applyMoves] at h; simp [h]
  | cons p rest ih =>
    intro node res h
    rcases p with ⟨r, m⟩
    rw [applyMoves, Option.bind_eq_some] at h
    rcases h with ⟨v, _, h⟩
    rw [Option.bind_eq_some] at h
    rcases h with ⟨node', hs, h⟩
    rw [← pySet_length hs]
    exact ih node' res h

theorem pyGet_of_nonneg_lt {α : Type} {node : List α} {m : Int}
    (h0 : 0 ≤ m) (hm : m < (node.length : Int)) : pyGet node m = node[m.toNat]? := by
  rw [pyGet, pyIdx, if_pos h0, if_pos hm]
  rfl

/-- Behaviour of the sequential move loop when every write lands strictly
below `B`, every read comes from at or above `B`, and no slot is written
twice: all reads see the original array, writes land as planned, and
everything else is untouched. -/
theorem applyMoves_spec {α : Type} (B : Nat) :
    ∀ (pairs : List (Nat × Int)) (node : List α),
      (∀ p ∈ pairs, p.1 < B ∧ (B : Int) ≤ p.2 ∧ p.2 < (node.length : Int)) →
      (pairs.map Prod.fst).Nodup →
      B ≤ node.length →
      ∃ res, applyMoves node pairs = some res ∧
        res.length = node.length ∧
        (∀ j : Nat, j ∉ pairs.map Prod.fst → res[j]? = node[j]?) ∧
        (∀ p ∈ pairs, res[p.1]? = pyGet node p.2) := by
  intro pairs
  induction pairs with
  | nil =>
    intro node _ _ _
    exact ⟨node, rfl, rfl, fun _ _ => rfl, fun p hp => absurd hp (by simp)⟩
  | cons p rest ih =>
    rintro node hmem hnd hB
    rcases p with ⟨r, m⟩
    obtain ⟨hr, hm0, hmN⟩ := hmem (r, m) (List.mem_cons_self _ _)
    have h0m : (0 : Int) ≤ m := le_trans (by positivity) hm0
    have hread : pyGet node m = node[m.toNat]? := pyGet_of_nonneg_lt h0m hmN
    have hmlt : m.toNat < node.length := by omega
    obtain ⟨v, hv⟩ : ∃ v, node[m.toNat]? = some v :=
      ⟨node[m.toNat], List.getElem?_eq_getElem hmlt⟩
    have hrlt : r < node.length := lt_of_lt_of_le hr hB
    have hset : pySet node (r : Int) v = some (node.set r v) := by
      rw [pySet, pyIdx, if_pos (by positivity), if_pos (by exact_mod_cast hrlt)]
      simp
    have hnd' : (rest.map Prod.fst).Nodup := (List.nodup_cons.mp (by simpa using hnd)).2
    have hrnotin : r ∉ rest.map Prod.fst := (List.nodup_cons.mp (by simpa using hnd)).1
    have hmem' : ∀ q ∈ rest, q.1 < B ∧ (B : Int) ≤ q.2 ∧ q.2 < ((node.set r v).length : Int) := by
      intro q hq
      obtain ⟨h1, h2, h3⟩ := hmem q (List.mem_cons_of_mem _ hq)
      exact ⟨h1, h2, by simpa using h3⟩
    obtain ⟨res, hrun, hlen, hframe, hfill⟩ :=
      ih (node.set r v) hmem' hnd' (by rw [List.length_set]; exact hB)
    have hrB : r < B := hr
    refine ⟨res, ?_, by rw [List.length_set] at hlen; exact hlen, ?_, ?_⟩
    · rw [applyMoves, hread, hv, Option.some_bind', hset, Option.some_bind']
      exact hrun
    · intro j hj
      have hjr : j ≠ r := by
        intro he; exact hj (by simp [he])
      have hjrest : j ∉ rest.map Prod.fst := by
        intro he; exact hj (by simp [he])
      rw [hframe j hjrest]
      exact List.getElem?_set_ne (fun he => hjr he.symm)
    · intro q hq
      rcases List.mem_cons.mp hq with rfl | hq'
      · show res[r]? = pyGet node m
        rw [hframe r hrnotin, hread, hv]
        exact List.getElem?_set_eq_of_lt v hrlt
      · rw [hfill q hq']
        obtain ⟨_, hq2, hq3⟩ := hmem q (List.mem_cons_of_mem _ hq')
        have h0q : (0 : Int) ≤ q.2 := le_trans (by positivity) hq2
        rw [pyGet_of_nonneg_lt h0q (by rw [List.length_set]; exact hq3),
            pyGet_of_nonneg_lt h0q hq3]
        apply List.getElem?_set_ne
        intro he
        omega

theorem mem_intRange {a b m : Int} : m ∈ intRange a b ↔ a ≤ m ∧ m < b := by
  rw [intRange]
  simp only [List.mem_map, List.mem_range]
  constructor
  · rintro ⟨i, hi, rfl⟩
    omega
  · rintro ⟨h1, h2⟩
    exact ⟨(m - a).toNat, by omega, by omega⟩

theorem length_intRange (a b : Int) : (intRange a b).length = (b - a).toNat := by
  simp [intRange]

theorem sorted_lt_intRange (a b : Int) : (intRange a b).Sorted (· < ·) := by
  rw [intRange, List.Sorted, List.pairwise_map]
  exact (List.sorted_lt_range _).imp (by omega)

theorem length_filter_partition {α : Type} (p : α → Bool) (l : List α) :
    (l.filter p).length + (l.filter (fun x => !(p x))).length = l.length := by
  induction l with
  | nil => rfl
  | cons a t ih =>
    by_cases h : p a <;> simp [List.filter_cons, h] <;> omega

theorem filter_not_contains_length {α : Type} [DecidableEq α] (l d : List α)
    (hl : l.Nodup) (hd : d.Nodup) (hsub : ∀ x ∈ d, x ∈ l) :
    (l.filter (fun x => !(d.contains x))).length = l.length - d.length := by
  have hpart := length_filter_partition (fun x => d.contains x) l
  have hmeml : (l.filter (fun x => d.contains x)).length = d.length := by
    have h1 : (l.filter (fun x => d.contains x)).Nodup := hl.filter _
    have h2 : ∀ x, x ∈ l.filter (fun x => d.contains x) ↔ x ∈ d := by
      intro x
      rw [List.mem_filter, List.elem_iff]
      exact ⟨fun h => h.2, fun h => ⟨hsub x h, h⟩⟩
    exact ((List.perm_ext_iff_of_nodup h1 hd).mpr h2).length_eq
  omega

/-- The two halves of the plan have equal length, every replacement slot is a
removed row strictly below `N - k`, every move source is a surviving tail row
not itself removed, and both sides are strictly ascending — given only that
the requested rows are in range. -/
theorem removePlan_spec (N : Nat) (rmRows : List Nat) (hin : ∀ r ∈ rmRows, r < N) :
    (removePlan N rmRows).1
        = (sortedSet rmRows).filter (fun r => decide (r < N - (sortedSet rmRows).length)) ∧
    (removePlan N rmRows).2.length = (removePlan N rmRows).1.length ∧
    (∀ m ∈ (removePlan N rmRows).2,
        ((N - (sortedSet rmRows).length : Nat) : Int) ≤ m ∧ m < (N : Int) ∧
        ∀ r ∈ sortedSet rmRows, (r : Int) ≠ m) ∧
    (removePlan N rmRows).1.Sorted (· < ·) ∧
    (removePlan N rmRows).2.Sorted (· < ·) := by
  have hinR : ∀ r ∈ sortedSet rmRows, r < N := fun r hr => hin r (mem_sortedSet.mp hr)
  have hkN : (sortedSet rmRows).length ≤ N := length_sortedSet_le hin
  simp only [removePlan]
  refine ⟨?_, ?_, ?_, ?_, ?_⟩
  · -- replaceRows as a Nat-level filter
    apply List.filter_congr
    intro r _
    rw [decide_eq_decide]
    omega
  · -- equal lengths
    have hdwsub : ∀ x ∈ ((sortedSet rmRows).filter
          (fun r : Nat => decide (((N:Int) - ((sortedSet rmRows).length:Int)) ≤ (r:Int)))).map
        (fun r : Nat => (r : Int)),
        x ∈ intRange ((N:Int) - ((sortedSet rmRows).length:Int)) (N:Int) := by
      intro x hx
      simp only [List.mem_map, List.mem_filter] at hx
      rcases hx with ⟨r, ⟨hrR, hrge⟩, rfl⟩
      rw [mem_intRange]
      have := hinR r hrR
      have := of_decide_eq_true hrge
      omega
    have hdwnd : (((sortedSet rmRows).filter
          (fun r : Nat => decide (((N:Int) - ((sortedSet rmRows).length:Int)) ≤ (r:Int)))).map
        (fun r : Nat => (r : Int))).Nodup := by
      refine List.Nodup.map (fun a b hab => by exact_mod_cast hab) ?_
      exact List.Nodup.filter _ (nodup_sortedSet rmRows)
    have hrange_nd : (intRange ((N:Int) - ((sortedSet rmRows).length:Int)) (N:Int)).Nodup :=
      (sorted_lt_intRange _ _).nodup
    rw [filter_not_contains_length _ _ hrange_nd hdwnd hdwsub]
    rw [length_intRange, List.length_map]
    have hpart := length_filter_partition
      (fun r : Nat => decide ((r : Int) < (N:Int) - ((sortedSet rmRows).length:Int)))
      (sortedSet rmRows)
    have hge : ((sortedSet rmRows).filter
          (fun x : Nat => !(decide ((x : Int) < (N:Int) - ((sortedSet rmRows).length:Int))))).length
        = ((sortedSet rmRows).filter
          (fun r : Nat => decide (((N:Int) - ((sortedSet rmRows).length:Int)) ≤ (r:Int)))).length := by
      congr 1
      apply List.filter_congr
      intro r _
      by_cases hc : ((N:Int) - ((sortedSet rmRows).length:Int)) ≤ (r:Int)
      · simp [hc, show ¬((r:Int) < (N:Int) - ((sortedSet rmRows).length:Int)) from by omega]
      · simp [hc, show (r:Int) < (N:Int) - ((sortedSet rmRows).length:Int) from by omega]
    rw [hge] at hpart
    omega
  · -- move sources are surviving tail rows
    intro m hm
    simp only [List.mem_filter, Bool.not_eq_eq_eq_not, Bool.not_true] at hm
    rcases hm with ⟨hmr, hmc⟩
    rw [mem_intRange] at hmr
    refine ⟨by omega, hmr.2, ?_⟩
    intro r hrR he
    have hmem : (m ∈ ((sortedSet rmRows).filter
          (fun r : Nat => decide (((N:Int) - ((sortedSet rmRows).length:Int)) ≤ (r:Int)))).map
        (fun r : Nat => (r : Int))) := by
      simp only [List.mem_map, List.mem_filter]
      refine ⟨r, ⟨hrR, ?_⟩, he⟩
      simp only [decide_eq_true_iff]
      omega
    have htrue := List.elem_iff.mpr hmem
    have hmc' : List.elem m (((sortedSet rmRows).filter
          (fun r : Nat => decide (((N:Int) - ((sortedSet rmRows).length:Int)) ≤ (r:Int)))).map
        (fun r : Nat => (r : Int))) = false := hmc
    rw [hmc'] at htrue
    exact absurd htrue (by simp)
  · exact List.Pairwise.filter _ (sorted_lt_sortedSet rmRows)
  · exact List.Pairwise.filter _ (sorted_lt_intRange _ _)

/-- C4: for a column of length `N` and removal set `R` (`k` distinct in-range
positions): the plan writes only at removed positions strictly below `N - k`
(removed rows in the tail get no write), each vacated slot is paired, in
ascending order on both sides, with a surviving tail row from `[N-k, N)` not
itself removed, the number of row writes equals the number of removed rows not
already in the tail, the array is truncated to `N - k`, written slots receive
exactly their paired tail row and untouched surviving slots keep their value;
in particular deleting rows `[2,5,6]` from `[0..9]` yields `[0,1,7,3,4,8,9]`. -/
theorem c4_delete_row_compaction {α : Type} (node : List α) (rmRows : List Nat)
    (hin : ∀ r ∈ rmRows, r < node.length) :
    ((removePlan node.length rmRows).1
        = (sortedSet rmRows).filter
            (fun r => decide (r < node.length - (sortedSet rmRows).length))) ∧
    (∀ r ∈ (removePlan node.length rmRows).1,
        r < node.length - (sortedSet rmRows).length) ∧
    (∀ m ∈ (removePlan node.length rmRows).2,
        ((node.length - (sortedSet rmRows).length : Nat) : Int) ≤ m ∧ m < (node.length : Int) ∧
        ∀ r ∈ sortedSet rmRows, (r : Int) ≠ m) ∧
    ((removePlan node.length rmRows).1.Sorted (· < ·)) ∧
    ((removePlan node.length rmRows).2.Sorted (· < ·)) ∧
    ((removePlan node.length rmRows).2.length = (removePlan node.length rmRows).1.length) ∧
    (∃ res, removeArrayRows node rmRows = some res ∧
      res.length = node.length - (sortedSet rmRows).length ∧
      (∀ (i ri : Nat) (mi : Int), (removePlan node.length rmRows).1[i]? = some ri →
          (removePlan node.length rmRows).2[i]? = some mi →
          res[ri]? = pyGet node mi) ∧
      (∀ j, j < node.length - (sortedSet rmRows).length →
          j ∉ (removePlan node.length rmRows).1 → res[j]? = node[j]?)) ∧
    (removeArrayRows (List.range 10) [2, 5, 6] = some [0, 1, 7, 3, 4, 8, 9]) := by
  obtain ⟨hrep, hleneq, hmov, hsortR, hsortM⟩ := removePlan_spec node.length rmRows hin
  have hkN : (sortedSet rmRows).length ≤ node.length := length_sortedSet_le hin
  have hreplt : ∀ r ∈ (removePlan node.length rmRows).1,
      r < node.length - (sortedSet rmRows).length := by
    intro r hr
    rw [hrep] at hr
    exact of_decide_eq_true (List.mem_filter.mp hr).2
  refine ⟨hrep, hreplt, hmov, hsortR, hsortM, hleneq, ?_, by rfl⟩
  -- run the algorithm
  have hrepnd : (removePlan node.length rmRows).1.Nodup := hsortR.nodup
  have hzipfst : ((removePlan node.length rmRows).1.zip
      (removePlan node.length rmRows).2).map Prod.fst = (removePlan node.length rmRows).1 :=
    List.map_fst_zip _ _ (le_of_eq hleneq.symm)
  have hpairs : ∀ p ∈ (removePlan node.length rmRows).1.zip (removePlan node.length rmRows).2,
      p.1 < node.length - (sortedSet rmRows).length ∧
      ((node.length - (sortedSet rmRows).length : Nat) : Int) ≤ p.2 ∧
      p.2 < (node.length : Int) := by
    intro p hp
    obtain ⟨h1, h2⟩ := List.of_mem_zip hp
    exact ⟨hreplt _ h1, (hmov _ h2).1, (hmov _ h2).2.1⟩
  obtain ⟨res', hrun, hlen', hframe', hfill'⟩ :=
    applyMoves_spec (node.length - (sortedSet rmRows).length)
      ((removePlan node.length rmRows).1.zip (removePlan node.length rmRows).2) node
      hpairs (by rw [hzipfst]; exact hrepnd) (Nat.sub_le _ _)
  have hres : removeArrayRows node rmRows
      = some (res'.take (node.length - (sortedSet rmRows).length)) := by
    rw [removeArrayRows]
    simp only [if_neg (by omega : ¬ ((removePlan node.length rmRows).2.length
        ≠ (removePlan node.length rmRows).1.length))]
    rw [hrun, Option.some_bind']
    rw [if_neg (by rw [hlen']; omega), hlen']
  refine ⟨res'.take (node.length - (sortedSet rmRows).length), hres, ?_, ?_, ?_⟩
  · rw [List.length_take, hlen']
    omega
  · intro i ri mi hri hmi
    have hzip : ((removePlan node.length rmRows).1.zip (removePlan node.length rmRows).2)[i]?
        = some (ri, mi) := by
      rw [List.getElem?_zip_eq_some]
      exact ⟨hri, hmi⟩
    have hmemz := List.getElem?_mem hzip
    have := hfill' _ hmemz
    rw [← this]
    have hrilt : ri < node.length - (sortedSet rmRows).length :=
      hreplt _ (List.getElem?_mem hri)
    exact List.getElem?_take_of_lt hrilt
  · intro j hj hjrep
    have hjz : j ∉ ((removePlan node.length rmRows).1.zip
        (removePlan node.length rmRows).2).map Prod.fst := by
      rw [hzipfst]; exact hjrep
    rw [List.getElem?_take_of_lt hj]
    exact hframe' j hjz

theorem c4_delete_row_compaction_witness :
    (∀ r ∈ [2, 5, 6], r < (List.range 10).length) ∧
    ∃ res, removeArrayRows (List.range 10) [2, 5, 6] = some res ∧ res.length = 7 := by
  refine ⟨by decide, ?_⟩
  obtain ⟨res, h1, h2, _, _⟩ :=
    (c4_delete_row_compaction (List.range 10) [2, 5, 6] (by decide)).2.2.2.2.2.2.1
  exact ⟨res, h1, h2.trans (by decide)⟩

/-- C3: for every supported value and each compression setting,
`decode(encode(v, compressed), compressed) == v` — for any serializer/
decompressor pair satisfying the msgpack/blosc library contracts — including
when the serialized payload ends in a zero byte; the encoder appends the
single fixed non-zero sentinel byte `b'1'` (0x31) after (optional)
compression (so the blob survives the backend's trailing-zero stripping),
and the decoder strips exactly one trailing byte before
decompressing/deserializing. -/
theorem c3_codec_roundtrip {V : Type} (packb : V → List Nat) (unpackb : List Nat → Option V)
    (compressB decompressB : List Nat → List Nat)
    (hpack : ∀ v, unpackb (packb v) = some v)
    (hcomp : ∀ b, decompressB (compressB b) = b) :
    ∀ (v : V) (compress : Bool),
      msgpack_loads unpackb decompressB compress
          (msgpack_dumps packb compressB compress v) = some v ∧
      (msgpack_dumps packb compressB compress v).getLast? = some 49 ∧
      (49 : Nat) ≠ 0 ∧
      msgpack_dumps packb compressB compress v
        = (if compress then compressB (packb v) else packb v) ++ [49] ∧
      rstripZeros (msgpack_dumps packb compressB compress v)
        = msgpack_dumps packb compressB compress v ∧
      (∀ x : List Nat, msgpack_loads unpackb decompressB compress x
        = if compress then unpackb (decompressB x.dropLast) else unpackb x.dropLast) := by
  intro v compress
  have hdump : msgpack_dumps packb compressB compress v
      = (if compress then compressB (packb v) else packb v) ++ [49] := by
    rw [msgpack_dumps]
    cases compress <;> simp
  have hstrip : ∀ b : List Nat, rstripZeros (b ++ [49]) = b ++ [49] := by
    intro b
    rw [rstripZeros, List.reverse_append]
    simp [List.dropWhile]
  refine ⟨?_, ?_, by decide, hdump, ?_, ?_⟩
  · rw [msgpack_loads, hdump]
    cases compress <;> simp [hcomp, hpack]
  · rw [hdump]
    simp
  · rw [hdump]
    exact hstrip _
  · intro x
    rw [msgpack_loads]

theorem c3_codec_roundtrip_witness :
    (([0] : List Nat).getLast? = some 0) ∧
    msgpack_loads (fun b => some b) (fun b => b) false
        (msgpack_dumps (fun v : List Nat => v) (fun b => b) false [0]) = some [0] ∧
    msgpack_loads (fun b => some b) (fun b => b) true
        (msgpack_dumps (fun v : List Nat => v) (fun b => b) true [0]) = some [0] :=
  ⟨rfl,
   (c3_codec_roundtrip (fun v => v) (fun b => some b) (fun b => b) (fun b => b)
      (fun _ => rfl) (fun _ => rfl) [0] false).1,
   (c3_codec_roundtrip (fun v => v) (fun b => some b) (fun b => b) (fun b => b)
      (fun _ => rfl) (fun _ => rfl) [0] true).1⟩

/-- C10 counterexample: the path `"a.h5\n"` does *not* end with `".h5"`, yet
the constructor accepts it (Python's `$` matches before a trailing newline),
so "raises iff the path does not end with '.h5'" is false as stated. -/
theorem c10_init_counterexample :
    h5ColStoreInit ['a', '.', 'h', '5', '\n'] = Except.ok ['a', '.', 'h', '5', '\n'] ∧
    strEndsWith ['a', '.', 'h', '5', '\n'] ['.', 'h', '5'] = false := by
  constructor
  · rfl
  · rfl

/-- C10 amended: constructing the store facade raises iff the path ends
neither with `".h5"` nor with `".h5\n"` (the regex `\.h5$` accepts a single
trailing newline); the constructor is a pure function of the path — it
performs no filesystem access. -/
theorem c10_init_iff (p : List Char) :
    (∃ msg, h5ColStoreInit p = Except.error msg) ↔
      (strEndsWith p ['.', 'h', '5'] = false ∧ strEndsWith p ['.', 'h', '5', '\n'] = false) := by
  rw [h5ColStoreInit, reSearchH5End]
  by_cases h1 : strEndsWith p ['.', 'h', '5'] <;>
    by_cases h2 : strEndsWith p ['.', 'h', '5', '\n'] <;> simp [h1, h2]

theorem le_dataWidth {data : List Cell} {cell : Cell} (h : cell ∈ data) :
    cellLen cell ≤ dataWidth data := by
  rw [dataWidth]
  induction data with
  | nil => simp at h
  | cons c cs ih =>
    rcases List.mem_cons.mp h with rfl | h'
    · simp only [List.map_cons, List.foldr_cons]
      omega
    · simp only [List.map_cons, List.foldr_cons]
      have := ih h'
      omega

/-- C5: for `s`- and `o`-dtype columns, writing a batch whose encoded
itemsize exceeds the declared width with resizing enabled succeeds, preserves
every stored row at its position (the rewrite is a verbatim row copy), and
updates the persisted dtype to the batch's itemsize, which bounds every
encoded value length in the batch.  For a *compressed* (`c`) column, however,
the metadata update applies `re.match(r'([os])', ...)` to a dtype string that
starts with `c`, gets `None`, and raises `AttributeError` — after the widened
array was already swapped in and with the persisted width left stale — shown
here by evaluating the embedding at such a column. -/
theorem c5_column_widening :
    (∀ (coldt : List (String × Dtype)) (colName : String) (col data : List Cell) (w dlen : Nat),
      lookup coldt colName = some (Dtype.s w) →
      npSWidth data = some dlen →
      w < dlen →
      safeColStrChange coldt colName col (Dtype.s w) data true
        = ((col, setCol coldt colName (Dtype.s dlen)), none)) ∧
    (∀ (coldt : List (String × Dtype)) (colName : String) (col data : List Cell) (w dlen : Nat),
      lookup coldt colName = some (Dtype.o w) →
      npSWidth data = some dlen →
      w < dlen →
      safeColStrChange coldt colName col (Dtype.o w) data true
        = ((col, setCol coldt colName (Dtype.o dlen)), none)) ∧
    (∀ (data : List Cell) (dlen : Nat), npSWidth data = some dlen →
      ∀ cell ∈ data, cellLen cell ≤ dlen) ∧
    (safeColStrChange [("x", Dtype.c 2)] "x" [Cell.bytes [1]] (Dtype.c 2)
        [Cell.bytes [9, 9, 9]] true
      = (([Cell.bytes [1]], [("x", Dtype.c 2)]),
         some "AttributeError: NoneType has no attribute group")) := by
  refine ⟨?_, ?_, ?_, by rfl⟩
  · intro coldt colName col data w dlen hdt hnp hlt
    rw [safeColStrChange]
    simp only [Dtype.oscWidth, hnp, if_pos hlt, Bool.not_true, Bool.false_eq_true, if_neg,
      copyRows_eq, hdt, updateDtypeOS]
    simp
  · intro coldt colName col data w dlen hdt hnp hlt
    rw [safeColStrChange]
    simp only [Dtype.oscWidth, hnp, if_pos hlt, Bool.not_true, Bool.false_eq_true, if_neg,
      copyRows_eq, hdt, updateDtypeOS]
    simp
  · intro data dlen hnp cell hc
    have : dlen = dataWidth data := by
      rw [npSWidth] at hnp
      split at hnp
      · exact (Option.some_inj.mp hnp).symm
      · exact absurd hnp (by simp)
    rw [this]
    exact le_dataWidth hc

theorem c5_column_widening_witness :
    (lookup [("x", Dtype.s 1)] "x" = some (Dtype.s 1)) ∧
    (npSWidth [Cell.bytes [7, 7]] = some 2) ∧
    ((1 : Nat) < 2) ∧
    (safeColStrChange [("x", Dtype.s 1)] "x" [Cell.bytes [5]] (Dtype.s 1)
        [Cell.bytes [7, 7]] true = (([Cell.bytes [5]], [("x", Dtype.s 2)]), none)) ∧
    (safeColStrChange [("y", Dtype.o 1)] "y" [Cell.bytes [5]] (Dtype.o 1)
        [Cell.bytes [7, 7]] true = (([Cell.bytes [5]], [("y", Dtype.o 2)]), none)) ∧
    (∀ cell ∈ [Cell.bytes [7, 7]], cellLen cell ≤ 2) := by
  refine ⟨rfl, rfl, by omega, ?_, ?_, ?_⟩
  · exact c5_column_widening.1 [("x", Dtype.s 1)] "x" [Cell.bytes [5]] [Cell.bytes [7, 7]] 1 2
      rfl rfl (by omega)
  · exact c5_column_widening.2.1 [("y", Dtype.o 1)] "y" [Cell.bytes [5]] [Cell.bytes [7, 7]] 1 2
      rfl rfl (by omega)
  · exact c5_column_widening.2.2.1 [Cell.bytes [7, 7]] 2 rfl

theorem allLenEq_some {colData : List (String × List Cell)} {L : Nat}
    (h : allLenEq colData = some L) : colData ≠ [] ∧ ∀ p ∈ colData, p.2.length = L := by
  match colData with
  | [] => simp [allLenEq] at h
  | x :: rest =>
    rw [allLenEq] at h
    split at h
    · next hall =>
      refine ⟨by simp, ?_⟩
      have hx : x.2.length = L := by cases h; rfl
      intro p hp
      rcases List.mem_cons.mp hp with rfl | hp'
      · exact hx
      · have hb := List.all_eq_true.mp hall p hp'
        have : p.2.length = x.2.length := by simpa using hb
        omega
    · exact absurd h (by simp)

/-- C6 counterexample: a read with an empty query clause list returns *all*
rows (here 2, not 0): `if query` is false for `[]`, so the code falls through
to the unfiltered full read. -/
theorem c6_empty_query_counterexample :
    readCtable
      { coldt := [("a", Dtype.i)], flavor := some [("a", false)],
        cols := [("a", [Cell.num 10, Cell.num 20])] } [] [] []
      = some [("a", [Cell.num 10, Cell.num 20])] ∧
    ([Cell.num 10, Cell.num 20] : List Cell).length ≠ 0 := by
  exact ⟨rfl, by decide⟩

/-- C6 amended: an empty query clause list is treated as "no query": the read
returns every requested column in full (all rows).  Passing an empty clause
list to the predicate compiler itself is an error (`match[0]` raises), but
`read_ctable` never reaches it for an empty query. -/
theorem c6_empty_query_reads_all_rows (t : Table)
    (h : ∀ c ∈ t.coldt.map Prod.fst, (lookup t.cols c).isSome) :
    ∃ out, readCtable t [] [] [] = some out ∧
      out.map Prod.fst = t.coldt.map Prod.fst ∧
      ∀ pr ∈ out, lookup t.cols pr.1 = some pr.2 := by
  have key : ∀ (names : List String), (∀ c ∈ names, (lookup t.cols c).isSome) →
      ∃ out, names.mapM (fun c =>
          (lookup t.cols c).bind fun arr => (applySel arr (Sel.nat [])).map (fun v => (c, v)))
        = some out ∧ out.map Prod.fst = names ∧ ∀ pr ∈ out, lookup t.cols pr.1 = some pr.2 := by
    intro names
    induction names with
    | nil => intro _; exact ⟨[], rfl, rfl, by simp⟩
    | cons c cs ih =>
      intro hall
      obtain ⟨arr, harr⟩ := Option.isSome_iff_exists.mp (hall c (List.mem_cons_self c cs))
      obtain ⟨out, hout, hfst, hmem⟩ := ih (fun c' hc' => hall c' (List.mem_cons_of_mem _ hc'))
      refine ⟨(c, arr) :: out, ?_, by simp [hfst], ?_⟩
      · rw [List.mapM_cons, hout, harr]
        rfl
      · intro pr hpr
        rcases List.mem_cons.mp hpr with rfl | hpr'
        · exact harr
        · exact hmem pr hpr'
  have hdef : readCtable t [] [] [] = (t.coldt.map Prod.fst).mapM (fun c =>
      (lookup t.cols c).bind fun arr => (applySel arr (Sel.nat [])).map (fun v => (c, v))) := rfl
  rw [hdef]
  exact key (t.coldt.map Prod.fst) h

theorem c6_empty_query_reads_all_rows_witness :
    (∀ c ∈ ([("a", Dtype.i)].map (Prod.fst (β := Dtype))),
        (lookup [("a", [Cell.num 10, Cell.num 20])] c).isSome) ∧
    ∃ out, readCtable
        { coldt := [("a", Dtype.i)], flavor := some [("a", false)],
          cols := [("a", [Cell.num 10, Cell.num 20])] } [] [] [] = some out ∧
      out.map Prod.fst = [("a", Dtype.i)].map Prod.fst ∧
      ∀ pr ∈ out, lookup [("a", [Cell.num 10, Cell.num 20])] pr.1 = some pr.2 := by
  refine ⟨by decide, ?_⟩
  exact c6_empty_query_reads_all_rows
    { coldt := [("a", Dtype.i)], flavor := some [("a", false)],
      cols := [("a", [Cell.num 10, Cell.num 20])] } (by decide)

/-- C7: a column named in `col_data` but absent from the schema makes
`update_ctable` raise (`col_dtype[col]` KeyError immediately after logging the
"...ignoring" warning): the update aborts instead of skipping the column, and
columns listed after it (here `"b"`) are never written. -/
theorem c7_update_unknown_column_raises :
    updateCtable (fun c => c) (fun c => c) true
      { coldt := [("a", Dtype.i), ("b", Dtype.i)],
        flavor := some [("a", false), ("b", false)],
        cols := [("a", [Cell.num 10, Cell.num 20]), ("b", [Cell.num 1, Cell.num 2])] }
      [Clause.single ⟨"a", Oper.ge, Cell.num 0⟩]
      [("zz", [Cell.num 5]), ("b", [Cell.num 7])]
      = ({ coldt := [("a", Dtype.i), ("b", Dtype.i)],
           flavor := some [("a", false), ("b", false)],
           cols := [("a", [Cell.num 10, Cell.num 20]), ("b", [Cell.num 1, Cell.num 2])] },
         some (UErr.keyError "zz")) := by
  rfl

/-- C8 counterexample: a `col_data` whose sequences have the individually
valid lengths 1 and `|R|` (= 2 here) is rejected up front with a length
mismatch, because every sequence is compared against the first one before the
query is even evaluated. -/
theorem c8_update_length_counterexample :
    (filterInds [("a", [Cell.num 10, Cell.num 20]), ("b", [Cell.num 1, Cell.num 2])]
        [Clause.single ⟨"a", Oper.ge, Cell.num 0⟩] = some [true, true]) ∧
    (nonzero [true, true] = [0, 1]) ∧
    updateCtable (fun c => c) (fun c => c) true
      { coldt := [("a", Dtype.i), ("b", Dtype.i)],
        flavor := some [("a", false), ("b", false)],
        cols := [("a", [Cell.num 10, Cell.num 20]), ("b", [Cell.num 1, Cell.num 2])] }
      [Clause.single ⟨"a", Oper.ge, Cell.num 0⟩]
      [("a", [Cell.num 5]), ("b", [Cell.num 7, Cell.num 8])]
      = ({ coldt := [("a", Dtype.i), ("b", Dtype.i)],
           flavor := some [("a", false), ("b", false)],
           cols := [("a", [Cell.num 10, Cell.num 20]), ("b", [Cell.num 1, Cell.num 2])] },
         some UErr.lenMismatch) := by
  exact ⟨rfl, rfl, rfl⟩

theorem c8a (encC encO : Cell → Cell) (resize : Bool) (t : Table) (q : List Clause)
    (colData : List (String × List Cell)) (p1 p2 : String × List Cell)
    (hq : q ≠ []) (h1 : p1 ∈ colData) (h2 : p2 ∈ colData)
    (hne : p1.2.length ≠ p2.2.length) :
    updateCtable encC encO resize t q colData = (t, some UErr.lenMismatch) := by
  have hcd : colData ≠ [] := by intro he; rw [he] at h1; simp at h1
  have hnone : allLenEq colData = none := by
    cases hall : allLenEq colData with
    | none => rfl
    | some L =>
      obtain ⟨_, hlen⟩ := allLenEq_some hall
      exact absurd ((hlen p1 h1).trans (hlen p2 h2).symm) hne
  rw [updateCtable, if_neg hq, if_neg hcd, hnone]

theorem c8b (encC encO : Cell → Cell) (resize : Bool) (t : Table) (q : List Clause)
    (colData : List (String × List Cell)) (L : Nat) (mask : List Bool)
    (hlen : allLenEq colData = some L) (hmask : filterInds t.cols q = some mask)
    (hL1 : L ≠ 1) (hLR : L ≠ (nonzero mask).length) :
    updateCtable encC encO resize t q colData = (t, some UErr.updateLenMismatch) := by
  have hq : q ≠ [] := by
    intro he
    rw [he, filterInds] at hmask
    exact absurd hmask (by simp)
  have hcd : colData ≠ [] := (allLenEq_some hlen).1
  rw [updateCtable, if_neg hq, if_neg hcd, hlen, hmask]
  simp only [if_pos (And.intro hL1 hLR)]

/-- C8 amended: all value sequences in `col_data` must share one common
length `L` (any two differing lengths raise a `LengthMismatchError` before the
query is evaluated, leaving the table unchanged), and `L` must be 1
(broadcast) or exactly `|R|`; otherwise the call fails before any column is
written, leaving the table unchanged. -/
theorem c8_update_length_validation :
    (∀ (encC encO : Cell → Cell) (resize : Bool) (t : Table) (q : List Clause)
        (colData : List (String × List Cell)) (p1 p2 : String × List Cell),
      q ≠ [] → p1 ∈ colData → p2 ∈ colData → p1.2.length ≠ p2.2.length →
      updateCtable encC encO resize t q colData = (t, some UErr.lenMismatch)) ∧
    (∀ (encC encO : Cell → Cell) (resize : Bool) (t : Table) (q : List Clause)
        (colData : List (String × List Cell)) (L : Nat) (mask : List Bool),
      allLenEq colData = some L → filterInds t.cols q = some mask →
      L ≠ 1 → L ≠ (nonzero mask).length →
      updateCtable encC encO resize t q colData = (t, some UErr.updateLenMismatch)) :=
  ⟨c8a, c8b⟩

theorem c8_update_length_validation_witness :
    (([("a", [Cell.num 5]), ("b", [Cell.num 7, Cell.num 8])] : List (String × List Cell)) ≠ [] ∧
      ([Cell.num 5] : List Cell).length ≠ ([Cell.num 7, Cell.num 8] : List Cell).length) ∧
    updateCtable (fun c => c) (fun c => c) true
      { coldt := [("a", Dtype.i), ("b", Dtype.i)],
        flavor := some [("a", false), ("b", false)],
        cols := [("a", [Cell.num 10, Cell.num 20]), ("b", [Cell.num 1, Cell.num 2])] }
      [Clause.single ⟨"a", Oper.ge, Cell.num 0⟩]
      [("a", [Cell.num 5]), ("b", [Cell.num 7, Cell.num 8])]
      = ({ coldt := [("a", Dtype.i), ("b", Dtype.i)],
           flavor := some [("a", false), ("b", false)],
           cols := [("a", [Cell.num 10, Cell.num 20]), ("b", [Cell.num 1, Cell.num 2])] },
         some UErr.lenMismatch) ∧
    updateCtable (fun c => c) (fun c => c) true
      { coldt := [("a", Dtype.i), ("b", Dtype.i)],
        flavor := some [("a", false), ("b", false)],
        cols := [("a", [Cell.num 10, Cell.num 20]), ("b", [Cell.num 1, Cell.num 2])] }
      [Clause.single ⟨"a", Oper.ge, Cell.num 0⟩]
      [("a", [Cell.num 5, Cell.num 6, Cell.num 9])]
      = ({ coldt := [("a", Dtype.i), ("b", Dtype.i)],
           flavor := some [("a", false), ("b", false)],
           cols := [("a", [Cell.num 10, Cell.num 20]), ("b", [Cell.num 1, Cell.num 2])] },
         some UErr.updateLenMismatch) := by
  refine ⟨⟨by decide, by decide⟩, ?_, ?_⟩
  · exact c8_update_length_validation.1 (fun c => c) (fun c => c) true _ _ _
      ("a", [Cell.num 5]) ("b", [Cell.num 7, Cell.num 8])
      (by decide) (by decide) (by decide) (by decide)
  · exact c8_update_length_validation.2 (fun c => c) (fun c => c) true _ _ _ 3 [true, true]
      rfl rfl (by decide) (by decide)

-- L0: no widening needed -> column and metadata unchanged, no error
theorem safeColStrChange_no_resize {coldt : List (String × Dtype)} {colName : String}
    {col data : List Cell} {dt : Dtype} {resize : Bool} {w dlen : Nat}
    (hw : dt.oscWidth = some w) (hnp : npSWidth data = some dlen) (hle : dlen ≤ w) :
    safeColStrChange coldt colName col dt data resize = ((col, coldt), none) := by
  rw [safeColStrChange, hw]
  simp only [hnp]
  rw [if_neg (by omega)]

-- wrAppend always appends some prefix
theorem wrAppend_ext (wr : String → Option Nat) (col : String) (cur data : List Cell) :
    ∃ ext, (wrAppend wr col cur data).1 = cur ++ ext := by
  rw [wrAppend]
  cases wr col
  · exact ⟨data, rfl⟩
  · exact ⟨data.take _, rfl⟩

theorem wrAppend_none (wr : String → Option Nat) (col : String) (cur data : List Cell)
    (h : wr col = none) : wrAppend wr col cur data = (cur ++ data, none) := by
  rw [wrAppend, h]

theorem wrAppend_fail (wr : String → Option Nat) (col : String) (cur data : List Cell)
    (h : wr col ≠ none) : (wrAppend wr col cur data).2.isSome := by
  rw [wrAppend]
  cases hw : wr col
  · exact absurd hw h
  · simp

-- L1: any outcome of one column write only appends to existing columns and
-- preserves the key list
theorem writeOneCol_inv (encC encO : Cell → Cell) (resize : Bool)
    (wr : String → Option Nat) (colData : List (String × List Cell))
    (st : LoopSt) (col : String) (dt : Dtype) :
    (writeOneCol encC encO resize wr colData st col dt).1.cols.map Prod.fst
        = st.cols.map Prod.fst ∧
    (∀ name arr, lookup st.cols name = some arr →
      ∃ ext, lookup (writeOneCol encC encO resize wr colData st col dt).1.cols name
        = some (arr ++ ext)) := by
  rw [writeOneCol]
  rcases hcd : lookup colData col with _ | raw
  · exact ⟨rfl, fun name arr h => ⟨[], by simpa using h⟩⟩
  · simp only
    rcases hac : lookup st.cols col with _ | colarr
    · exact ⟨rfl, fun name arr h => ⟨[], by simpa using h⟩⟩
    · simp only
      have hmem : col ∈ st.cols.map Prod.fst := by
        rw [← lookup_isSome_iff, hac]; rfl
      have key : ∀ (newv : List Cell), (∃ ext, newv = colarr ++ ext) →
          (setCol st.cols col newv).map Prod.fst = st.cols.map Prod.fst ∧
          (∀ name arr, lookup st.cols name = some arr →
            ∃ ext, lookup (setCol st.cols col newv) name = some (arr ++ ext)) := by
        rintro newv ⟨ext, rfl⟩
        refine ⟨map_fst_setCol _ _ _, ?_⟩
        intro name arr h
        by_cases hn : name = col
        · subst hn
          rw [h] at hac
          cases hac
          exact ⟨ext, lookup_setCol_self _ hmem⟩
        · exact ⟨[], by rw [lookup_setCol_ne _ hn, h, List.append_nil]⟩
      by_cases hosc : (dt.oscWidth).isSome
      · rw [if_pos hosc]
        have hfst := safeColStrChange_fst_fst st.coldt col colarr dt
          (convertData encC encO dt raw) resize
        rcases hr : (safeColStrChange st.coldt col colarr dt
            (convertData encC encO dt raw) resize).2 with _ | e
        · simp only
          obtain ⟨ext, hext⟩ := wrAppend_ext wr col
            (safeColStrChange st.coldt col colarr dt (convertData encC encO dt raw) resize).1.1
            (convertData encC encO dt raw)
          exact key _ ⟨ext, by rw [hext, hfst]⟩
        · simp only
          exact key _ ⟨[], by rw [hfst]; simp⟩
      · rw [if_neg hosc]
        obtain ⟨ext, hext⟩ := wrAppend_ext wr col colarr (convertData encC encO dt raw)
        exact key _ ⟨ext, hext⟩

-- L2: a successful column write appends exactly the converted batch
theorem writeOneCol_none_inv {encC encO : Cell → Cell} {resize : Bool}
    {wr : String → Option Nat} {colData : List (String × List Cell)}
    {st st' : LoopSt} {col : String} {dt : Dtype}
    (h : writeOneCol encC encO resize wr colData st col dt = (st', none)) :
    ∃ raw colarr, lookup colData col = some raw ∧ lookup st.cols col = some colarr ∧
      st'.cols = setCol st.cols col (colarr ++ convertData encC encO dt raw) := by
  rw [writeOneCol] at h
  rcases hcd : lookup colData col with _ | raw <;> rw [hcd] at h
  · exact absurd (congrArg Prod.snd h) (by simp)
  · simp only at h
    rcases hac : lookup st.cols col with _ | colarr <;> rw [hac] at h
    · exact absurd (congrArg Prod.snd h) (by simp)
    · simp only at h
      refine ⟨raw, colarr, rfl, rfl, ?_⟩
      by_cases hosc : (dt.oscWidth).isSome
      · rw [if_pos hosc] at h
        have hfst := safeColStrChange_fst_fst st.coldt col colarr dt
          (convertData encC encO dt raw) resize
        rcases hr : (safeColStrChange st.coldt col colarr dt
            (convertData encC encO dt raw) resize).2 with _ | e <;> rw [hr] at h
        · simp only at h
          rcases hwr : wr col with _ | j
          · rw [wrAppend_none _ _ _ _ hwr] at h
            have := congrArg Prod.fst h
            simp only at this
            rw [← this, hfst]
          · rw [wrAppend, hwr] at h
            exact absurd (congrArg Prod.snd h) (by simp)
        · exact absurd (congrArg Prod.snd h) (by simp)
      · rw [if_neg hosc] at h
        rcases hwr : wr col with _ | j
        · rw [wrAppend_none _ _ _ _ hwr] at h
          have := congrArg Prod.fst h
          simp only at this
          rw [← this]
        · rw [wrAppend, hwr] at h
          exact absurd (congrArg Prod.snd h) (by simp)

-- L3: under the normal-operation conditions one column write succeeds,
-- appends the converted batch and leaves the metadata untouched
theorem writeOneCol_ok {encC encO : Cell → Cell} {resize : Bool}
    {wr : String → Option Nat} {colData : List (String × List Cell)}
    {st : LoopSt} {col : String} {dt : Dtype} {raw colarr : List Cell}
    (hraw : lookup colData col = some raw) (harr : lookup st.cols col = some colarr)
    (hwr : wr col = none)
    (hosc : ∀ w, dt.oscWidth = some w → ∃ dlen,
      npSWidth (convertData encC encO dt raw) = some dlen ∧ dlen ≤ w) :
    writeOneCol encC encO resize wr colData st col dt
      = (⟨setCol st.cols col (colarr ++ convertData encC encO dt raw), st.coldt⟩, none) := by
  rw [writeOneCol, hraw]
  simp only
  rw [harr]
  simp only
  by_cases ho : (dt.oscWidth).isSome
  · rw [if_pos ho]
    obtain ⟨w, hw⟩ := Option.isSome_iff_exists.mp ho
    obtain ⟨dlen, hnp, hle⟩ := hosc w hw
    rw [safeColStrChange_no_resize hw hnp hle]
    simp only
    rw [wrAppend_none _ _ _ _ hwr]
  · rw [if_neg ho]
    rw [wrAppend_none _ _ _ _ hwr]

-- L4: a column whose backend write is scheduled to fail makes the iteration
-- fail
theorem writeOneCol_wrfail {encC encO : Cell → Cell} {resize : Bool}
    {wr : String → Option Nat} {colData : List (String × List Cell)}
    {st : LoopSt} {col : String} {dt : Dtype}
    (hwr : wr col ≠ none) :
    (writeOneCol encC encO resize wr colData st col dt).2.isSome := by
  rw [writeOneCol]
  rcases hcd : lookup colData col with _ | raw
  · simp
  · simp only
    rcases hac : lookup st.cols col with _ | colarr
    · simp
    · simp only
      by_cases ho : (dt.oscWidth).isSome
      · rw [if_pos ho]
        rcases hr : (safeColStrChange st.coldt col colarr dt
            (convertData encC encO dt raw) resize).2 with _ | e
        · simp only
          exact wrAppend_fail _ _ _ _ hwr
        · simp
      · rw [if_neg ho]
        exact wrAppend_fail _ _ _ _ hwr

-- L5: the loop only appends to existing columns, whatever happens
theorem appendLoop_inv (encC encO : Cell → Cell) (resize : Bool)
    (wr : String → Option Nat) (colData : List (String × List Cell)) :
    ∀ (items : List (String × Dtype)) (st : LoopSt),
      (appendLoop encC encO resize wr colData items st).1.cols.map Prod.fst
        = st.cols.map Prod.fst ∧
      (∀ name arr, lookup st.cols name = some arr →
        ∃ ext, lookup (appendLoop encC encO resize wr colData items st).1.cols name
          = some (arr ++ ext)) := by
  intro items
  induction items with
  | nil => exact fun st => ⟨rfl, fun name arr h => ⟨[], by simpa using h⟩⟩
  | cons p rest ih =>
    intro st
    rcases p with ⟨col, dt⟩
    rw [appendLoop]
    rcases hw : writeOneCol encC encO resize wr colData st col dt with ⟨st1, e?⟩
    obtain ⟨hfst1, hlook1⟩ := writeOneCol_inv encC encO resize wr colData st col dt
    rw [hw] at hfst1 hlook1
    rcases e? with _ | e
    · simp only
      obtain ⟨hfst2, hlook2⟩ := ih st1
      refine ⟨hfst2.trans hfst1, ?_⟩
      intro name arr h
      obtain ⟨ext1, h1⟩ := hlook1 name arr h
      obtain ⟨ext2, h2⟩ := hlook2 name (arr ++ ext1) h1
      exact ⟨ext1 ++ ext2, by rw [h2, List.append_assoc]⟩
    · exact ⟨hfst1, hlook1⟩

-- L6: a fully successful loop appends exactly the converted batch to every
-- listed column and touches nothing else
theorem appendLoop_none_inv (encC encO : Cell → Cell) (resize : Bool)
    (wr : String → Option Nat) (colData : List (String × List Cell)) :
    ∀ (items : List (String × Dtype)) (st st' : LoopSt),
      appendLoop encC encO resize wr colData items st = (st', none) →
      (items.map Prod.fst).Nodup →
      (∀ name, name ∉ items.map Prod.fst → lookup st'.cols name = lookup st.cols name) ∧
      (∀ p ∈ items, ∃ raw colarr, lookup colData p.1 = some raw ∧
        lookup st.cols p.1 = some colarr ∧
        lookup st'.cols p.1 = some (colarr ++ convertData encC encO p.2 raw)) := by
  intro items
  induction items with
  | nil =>
    intro st st' h _
    rw [appendLoop] at h
    cases h
    exact ⟨fun _ _ => rfl, by simp⟩
  | cons p rest ih =>
    intro st st' h hnd
    rcases p with ⟨col, dt⟩
    rw [appendLoop] at h
    rcases hw : writeOneCol encC encO resize wr colData st col dt with ⟨st1, e?⟩
    rw [hw] at h
    rcases e? with _ | e
    · simp only at h
      have hnd' : (rest.map Prod.fst).Nodup := (List.nodup_cons.mp (by simpa using hnd)).2
      have hcolnot : col ∉ rest.map Prod.fst := (List.nodup_cons.mp (by simpa using hnd)).1
      obtain ⟨hframe, hmem⟩ := ih st1 st' h hnd'
      obtain ⟨raw, colarr, hraw, harr, hcols1⟩ := writeOneCol_none_inv hw
      have hmem1 : col ∈ st.cols.map Prod.fst := by
        rw [← lookup_isSome_iff, harr]; rfl
      constructor
      · intro name hname
        have hn1 : name ≠ col := by intro he; exact hname (by simp [he])
        have hn2 : name ∉ rest.map Prod.fst := by intro he; exact hname (by simp [he])
        rw [hframe name hn2, hcols1, lookup_setCol_ne _ hn1]
      · intro q hq
        rcases List.mem_cons.mp hq with rfl | hq'
        · refine ⟨raw, colarr, hraw, harr, ?_⟩
          show lookup st'.cols col = _
          rw [hframe col hcolnot, hcols1]
          exact lookup_setCol_self _ hmem1
        · obtain ⟨raw', colarr', hraw', harr', hfinal⟩ := hmem q hq'
          have hqcol : q.1 ≠ col := by
            intro he
            exact hcolnot (he ▸ List.mem_map.mpr ⟨q, hq', rfl⟩)
          refine ⟨raw', colarr', hraw', ?_, hfinal⟩
          rw [hcols1, lookup_setCol_ne _ hqcol] at harr'
          exact harr'
    · simp only at h
      exact absurd (congrArg Prod.snd h) (by simp)

-- L7: under normal-operation conditions the loop succeeds without touching
-- the dtype metadata
theorem appendLoop_ok (encC encO : Cell → Cell) (resize : Bool)
    (wr : String → Option Nat) (colData : List (String × List Cell)) :
    ∀ (items : List (String × Dtype)) (st : LoopSt),
      (∀ p ∈ items, ∃ raw, lookup colData p.1 = some raw ∧
        (lookup st.cols p.1).isSome ∧ wr p.1 = none ∧
        (∀ w, p.2.oscWidth = some w → ∃ dlen,
          npSWidth (convertData encC encO p.2 raw) = some dlen ∧ dlen ≤ w)) →
      ∃ st', appendLoop encC encO resize wr colData items st = (st', none) ∧
        st'.coldt = st.coldt := by
  intro items
  induction items with
  | nil => exact fun st _ => ⟨st, rfl, rfl⟩
  | cons p rest ih =>
    intro st hcond
    rcases p with ⟨col, dt⟩
    obtain ⟨raw, hraw, hsome, hwr, hosc⟩ := hcond (col, dt) (List.mem_cons_self _ _)
    obtain ⟨colarr, harr⟩ := Option.isSome_iff_exists.mp hsome
    have hw := @writeOneCol_ok encC encO resize wr colData st col dt raw colarr hraw harr hwr hosc
    rw [appendLoop, hw]
    simp only
    apply ih
    intro q hq
    obtain ⟨raw', hraw', hsome', hwr', hosc'⟩ := hcond q (List.mem_cons_of_mem _ hq)
    refine ⟨raw', hraw', ?_, hwr', hosc'⟩
    simp only
    rw [lookup_isSome_iff, map_fst_setCol, ← lookup_isSome_iff]
    exact hsome'

-- L8: if some listed column is scheduled to fail, the loop fails
theorem appendLoop_fail (encC encO : Cell → Cell) (resize : Bool)
    (wr : String → Option Nat) (colData : List (String × List Cell)) :
    ∀ (items : List (String × Dtype)) (st : LoopSt),
      (∃ p ∈ items, wr p.1 ≠ none) →
      (appendLoop encC encO resize wr colData items st).2.isSome := by
  intro items
  induction items with
  | nil => rintro st ⟨p, hp, _⟩; simp at hp
  | cons q rest ih =>
    rintro st ⟨p, hp, hpwr⟩
    rcases q with ⟨col, dt⟩
    rw [appendLoop]
    rcases hw : writeOneCol encC encO resize wr colData st col dt with ⟨st1, e?⟩
    rcases e? with _ | e
    · simp only
      rcases List.mem_cons.mp hp with rfl | hp'
      · -- the head itself was scheduled to fail: contradiction with success
        have := @writeOneCol_wrfail encC encO resize wr colData st col dt hpwr
        rw [hw] at this
        exact absurd this (by simp)
      · exact ih st1 ⟨p, hp', hpwr⟩
    · simp

-- L10: removing exactly the freshly appended index range truncates back
theorem removeArrayRows_range {α : Type} (arr : List α) (n k : Nat)
    (hlen : arr.length = n + k) :
    removeArrayRows arr (List.range' n k) = some (arr.take n) := by
  have hss : sortedSet (List.range' n k) = List.range' n k :=
    sortedSet_eq_self (List.nodup_range' n k) ((List.pairwise_le_range' n k).imp (fun h => h))
  have hfst : (removePlan arr.length (List.range' n k)).1 = [] := by
    rw [removePlan]
    simp only [hss, List.length_range', hlen]
    rw [List.filter_eq_nil_iff]
    intro r hr
    rw [List.mem_range'_1] at hr
    simp only [decide_eq_true_iff]
    push_cast
    omega
  have hsnd : (removePlan arr.length (List.range' n k)).2 = [] := by
    rw [removePlan]
    simp only [hss, List.length_range', hlen]
    rw [List.filter_eq_nil_iff]
    intro x hx
    rw [mem_intRange] at hx
    have hxdw : x ∈ (((List.range' n k).filter
        (fun r : Nat => decide ((((n : Nat) + (k : Nat) : Nat) : Int) - ((k : Nat) : Int) ≤ (r : Int)))).map
          (fun r : Nat => (r : Int))) := by
      simp only [List.mem_map, List.mem_filter, List.mem_range'_1]
      refine ⟨x.toNat, ⟨⟨by omega, by omega⟩, ?_⟩, by omega⟩
      simp only [decide_eq_true_iff]
      push_cast
      omega
    simp only [Bool.not_eq_true', Bool.not_eq_false]
    exact List.elem_iff.mpr hxdw
  have hslen : ((sortedSet (List.range' n k)).length) = k := by
    rw [hss, List.length_range']
  rw [removeArrayRows]
  simp only [hfst, hsnd, hslen, List.length_nil, ne_eq, not_true_eq_false, not_false_eq_true,
    if_false, if_true, ite_false, ite_true, List.zip_nil_left, applyMoves, Option.some_bind']
  rw [if_neg (by omega)]
  congr 1
  congr 1
  omega

-- L9: the rollback loop truncates every listed column back to `prev` rows
theorem restoreCols_spec (prev : Nat) :
    ∀ (coldt : List (String × Dtype)) (cols : List (String × List Cell)),
      (coldt.map Prod.fst).Nodup →
      (∀ p ∈ coldt, ∃ arr, lookup cols p.1 = some arr ∧ prev ≤ arr.length) →
      ∃ cols', restoreCols prev coldt cols = some cols' ∧
        cols'.map Prod.fst = cols.map Prod.fst ∧
        (∀ name, name ∉ coldt.map Prod.fst → lookup cols' name = lookup cols name) ∧
        (∀ p ∈ coldt, lookup cols' p.1 = (lookup cols p.1).map (fun arr => arr.take prev)) := by
  intro coldt
  induction coldt with
  | nil =>
    intro cols _ _
    exact ⟨cols, rfl, rfl, fun _ _ => rfl, by simp⟩
  | cons q rest ih =>
    intro cols hnd hcond
    rcases q with ⟨c, dt⟩
    obtain ⟨arr, harr, hple⟩ := hcond (c, dt) (List.mem_cons_self _ _)
    have hnd' : (rest.map Prod.fst).Nodup := (List.nodup_cons.mp (by simpa using hnd)).2
    have hcnot : c ∉ rest.map Prod.fst := (List.nodup_cons.mp (by simpa using hnd)).1
    have hcmem : c ∈ cols.map Prod.fst := by rw [← lookup_isSome_iff, harr]; rfl
    rw [restoreCols, harr]
    simp only
    by_cases hlt : prev < arr.length
    · rw [if_pos hlt]
      rw [removeArrayRows_range arr prev (arr.length - prev) (by omega)]
      simp only
      obtain ⟨cols', hrun, hfst, hframe, hmem⟩ := ih (setCol cols c (arr.take prev)) hnd'
        (by
          intro p hp
          obtain ⟨a, ha, hpa⟩ := hcond p (List.mem_cons_of_mem _ hp)
          have hne : p.1 ≠ c := by
            intro he
            exact hcnot (he ▸ List.mem_map.mpr ⟨p, hp, rfl⟩)
          exact ⟨a, by rw [lookup_setCol_ne _ hne]; exact ha, hpa⟩)
      refine ⟨cols', hrun, hfst.trans (map_fst_setCol _ _ _), ?_, ?_⟩
      · intro name hname
        have hn1 : name ≠ c := by intro he; exact hname (by simp [he])
        have hn2 : name ∉ rest.map Prod.fst := by intro he; exact hname (by simp [he])
        rw [hframe name hn2, lookup_setCol_ne _ hn1]
      · intro p hp
        rcases List.mem_cons.mp hp with rfl | hp'
        · show lookup cols' c = _
          rw [hframe c hcnot, harr, lookup_setCol_self _ hcmem]
          rfl
        · have hne : p.1 ≠ c := by
            intro he
            exact hcnot (he ▸ List.mem_map.mpr ⟨p, hp', rfl⟩)
          rw [hmem p hp', lookup_setCol_ne _ hne]
    · rw [if_neg hlt]
      obtain ⟨cols', hrun, hfst, hframe, hmem⟩ := ih cols hnd'
        (fun p hp => hcond p (List.mem_cons_of_mem _ hp))
      refine ⟨cols', hrun, hfst, ?_, ?_⟩
      · intro name hname
        have hn2 : name ∉ rest.map Prod.fst := by intro he; exact hname (by simp [he])
        exact hframe name hn2
      · intro p hp
        rcases List.mem_cons.mp hp with rfl | hp'
        · show lookup cols' c = _
          rw [hframe c hcnot, harr]
          simp [List.take_of_length_le (by omega : arr.length ≤ prev)]
        · exact hmem p hp'

/-- C2: if the backend append of any one column fails partway through the
per-column loop of `_append_ctable`, the rollback loop truncates every column
whose length now exceeds its pre-call length back to exactly the pre-call
length (removing exactly the rows this call added), the original error is
re-raised (`AErr.loopFail`), every column's stored array is restored exactly,
and afterwards all columns' lengths equal their common pre-call length. -/
theorem c2_append_rollback (encC encO : Cell → Cell) (resize : Bool)
    (wr : String → Option Nat) (flavOf : String → Bool) (t : Table)
    (colData : List (String × List Cell)) (n : Nat)
    (hnd : (t.coldt.map Prod.fst).Nodup)
    (hkeys : t.cols.map Prod.fst = t.coldt.map Prod.fst)
    (hlens : ∀ p ∈ t.cols, p.2.length = n)
    (hlenEq : (allLenEq colData).isSome)
    (hcover : ∀ p ∈ t.coldt, (lookup colData p.1).isSome)
    (hfail : ∃ p ∈ t.coldt, wr p.1 ≠ none) :
    (∃ msg, (appendCtable encC encO resize wr flavOf t colData).2
        = some (AErr.loopFail msg)) ∧
    (∀ name, lookup (appendCtable encC encO resize wr flavOf t colData).1.cols name
        = lookup t.cols name) ∧
    (∀ p ∈ (appendCtable encC encO resize wr flavOf t colData).1.cols, p.2.length = n) := by
  obtain ⟨L, hall⟩ := Option.isSome_iff_exists.mp hlenEq
  have hany : (t.coldt.any (fun p => (lookup colData p.1).isNone)) = false := by
    rw [List.any_eq_false]
    intro p hp
    have := hcover p hp
    cases h : lookup colData p.1
    · rw [h] at this; exact absurd this (by simp)
    · simp [h]
  -- the target table is nonempty
  rcases hcd : t.coldt with _ | ⟨⟨c0, dt0⟩, rest⟩
  · obtain ⟨p, hp, _⟩ := hfail
    rw [hcd] at hp
    simp at hp
  -- first column's node and the recorded row count
  have hc0mem : c0 ∈ t.cols.map Prod.fst := by
    rw [hkeys, hcd]; simp
  obtain ⟨col0, hcol0⟩ := Option.isSome_iff_exists.mp (lookup_isSome_iff.mpr hc0mem)
  have hprev : col0.length = n := hlens _ (mem_of_lookup_eq_some hcol0)
  -- the loop fails
  rcases hloop : appendLoop encC encO resize wr colData t.coldt ⟨t.cols, t.coldt⟩
    with ⟨stX, e?⟩
  have hfailed : e?.isSome := by
    have := appendLoop_fail encC encO resize wr colData t.coldt ⟨t.cols, t.coldt⟩ hfail
    rw [hloop] at this
    exact this
  obtain ⟨e, he⟩ := Option.isSome_iff_exists.mp hfailed
  subst he
  -- every column after the partial loop is its original array plus a suffix
  obtain ⟨hfstX, hlookX⟩ := appendLoop_inv encC encO resize wr colData t.coldt
    ⟨t.cols, t.coldt⟩
  rw [hloop] at hfstX hlookX
  -- rollback
  obtain ⟨cols', hrestore, hfst', hframe', hmem'⟩ := restoreCols_spec col0.length t.coldt
    stX.cols hnd
    (by
      intro p hp
      have hpmem : p.1 ∈ t.cols.map Prod.fst := by
        rw [hkeys]; exact List.mem_map.mpr ⟨p, hp, rfl⟩
      obtain ⟨arr, harr⟩ := Option.isSome_iff_exists.mp (lookup_isSome_iff.mpr hpmem)
      obtain ⟨ext, hext⟩ := hlookX p.1 arr harr
      refine ⟨arr ++ ext, hext, ?_⟩
      have := hlens _ (mem_of_lookup_eq_some harr)
      simp [this, hprev])
  -- assemble the result of appendCtable
  have hres : appendCtable encC encO resize wr flavOf t colData
      = ({ coldt := stX.coldt,
           flavor := match t.flavor with
             | some fl => some fl
             | none => some (setFlavor flavOf t.coldt),
           cols := cols' }, some (AErr.loopFail e)) := by
    rw [hcd] at hloop hrestore
    rw [appendCtable, hall]
    simp only
    rw [if_neg (show ¬ ((t.coldt.any (fun p => (lookup colData p.1).isNone)) = true) by
      rw [hany]; simp)]
    rw [hcd]
    simp only
    rw [hcol0]
    simp only
    rw [hloop]
    simp only
    rw [hrestore, ← hcd]
  rw [hres]
  refine ⟨⟨e, rfl⟩, ?_, ?_⟩
  · intro name
    by_cases hn : name ∈ t.coldt.map Prod.fst
    · obtain ⟨p, hp, rfl⟩ := List.mem_map.mp hn
      have hpmem : p.1 ∈ t.cols.map Prod.fst := by
        rw [hkeys]; exact List.mem_map.mpr ⟨p, hp, rfl⟩
      obtain ⟨arr, harr⟩ := Option.isSome_iff_exists.mp (lookup_isSome_iff.mpr hpmem)
      obtain ⟨ext, hext⟩ := hlookX p.1 arr harr
      rw [hmem' p hp, hext, harr]
      have harrn : arr.length = n := hlens _ (mem_of_lookup_eq_some harr)
      simp only [Option.map_some']
      rw [List.take_left' (by omega)]
    · have h1 := hframe' name hn
      have h2 : lookup t.cols name = none := by
        rw [lookup_eq_none_iff, hkeys]; exact hn
      have h3 : lookup stX.cols name = none := by
        rw [lookup_eq_none_iff, hfstX, hkeys]; exact hn
      rw [h1, h3, h2]
  · intro p hp
    have hnd' : (cols'.map Prod.fst).Nodup := by
      rw [hfst', hfstX, hkeys]; exact hnd
    have hl := lookup_of_nodup_mem hnd' hp
    have hpc : p.1 ∈ t.coldt.map Prod.fst := by
      have : p.1 ∈ cols'.map Prod.fst := List.mem_map.mpr ⟨p, hp, rfl⟩
      rw [hfst', hfstX, hkeys] at this
      exact this
    obtain ⟨q, hq, hq1⟩ := List.mem_map.mp hpc
    have hqmem : q.1 ∈ t.cols.map Prod.fst := by
      rw [hkeys]; exact List.mem_map.mpr ⟨q, hq, rfl⟩
    obtain ⟨arr, harr⟩ := Option.isSome_iff_exists.mp (lookup_isSome_iff.mpr hqmem)
    obtain ⟨ext, hext⟩ := hlookX q.1 arr harr
    have harrn : arr.length = n := hlens _ (mem_of_lookup_eq_some harr)
    have := hmem' q hq
    rw [hext, Option.map_some', List.take_left' (by omega)] at this
    rw [hq1] at this
    rw [hl] at this
    cases this
    exact harrn

theorem c2_append_rollback_witness :
    ((([("a", [Cell.num 10, Cell.num 20]), ("b", [Cell.num 1, Cell.num 2])] :
        List (String × List Cell)).map Prod.fst).Nodup) ∧
    (∃ msg, (appendCtable (fun c => c) (fun c => c) true
        (fun c => if c = "b" then some 1 else none) (fun _ => false)
        { coldt := [("a", Dtype.i), ("b", Dtype.i)],
          flavor := some [("a", false), ("b", false)],
          cols := [("a", [Cell.num 10, Cell.num 20]), ("b", [Cell.num 1, Cell.num 2])] }
        [("a", [Cell.num 30]), ("b", [Cell.num 3])]).2 = some (AErr.loopFail msg)) ∧
    (∀ p ∈ (appendCtable (fun c => c) (fun c => c) true
        (fun c => if c = "b" then some 1 else none) (fun _ => false)
        { coldt := [("a", Dtype.i), ("b", Dtype.i)],
          flavor := some [("a", false), ("b", false)],
          cols := [("a", [Cell.num 10, Cell.num 20]), ("b", [Cell.num 1, Cell.num 2])] }
        [("a", [Cell.num 30]), ("b", [Cell.num 3])]).1.cols, p.2.length = 2) := by
  refine ⟨by decide, ?_⟩
  have h := c2_append_rollback (fun c => c) (fun c => c) true
      (fun c => if c = "b" then some 1 else none) (fun _ => false)
      { coldt := [("a", Dtype.i), ("b", Dtype.i)],
        flavor := some [("a", false), ("b", false)],
        cols := [("a", [Cell.num 10, Cell.num 20]), ("b", [Cell.num 1, Cell.num 2])] }
      [("a", [Cell.num 30]), ("b", [Cell.num 3])] 2
      (by decide) (by decide) (by decide) (by decide) (by decide)
      (by decide)
  exact ⟨h.1, h.2.2⟩

/-- C9: an append whose `col_data` contains extra columns absent from the
persisted schema (while covering all schema columns, under normal backend
operation) succeeds: the extra data is silently not written anywhere, the
schema (`coldt`) and flavor metadata are unchanged, the set of stored column
nodes is unchanged, every schema column receives exactly the appended rows,
and every non-schema node lookup is untouched. -/
theorem c9_append_extra_columns (encC encO : Cell → Cell) (resize : Bool) (wr : String → Option Nat)
    (flavOf : String → Bool) (t : Table) (colData : List (String × List Cell))
    (fl : List (String × Bool))
    (hnd : (t.coldt.map Prod.fst).Nodup)
    (hkeys : t.cols.map Prod.fst = t.coldt.map Prod.fst)
    (hflav : t.flavor = some fl)
    (hlenEq : (allLenEq colData).isSome)
    (hcond : ∀ p ∈ t.coldt, ∃ raw, lookup colData p.1 = some raw ∧ wr p.1 = none ∧
      (∀ w, p.2.oscWidth = some w → ∃ dlen,
        npSWidth (convertData encC encO p.2 raw) = some dlen ∧ dlen ≤ w))
    (hne : t.coldt ≠ [])
    (_hextra : ∃ name ∈ colData.map Prod.fst, name ∉ t.coldt.map Prod.fst) :
    (appendCtable encC encO resize wr flavOf t colData).2 = none ∧
    (appendCtable encC encO resize wr flavOf t colData).1.coldt = t.coldt ∧
    (appendCtable encC encO resize wr flavOf t colData).1.flavor = t.flavor ∧
    (appendCtable encC encO resize wr flavOf t colData).1.cols.map Prod.fst
      = t.cols.map Prod.fst ∧
    (∀ p ∈ t.coldt, ∃ raw colarr, lookup colData p.1 = some raw ∧
      lookup t.cols p.1 = some colarr ∧
      lookup (appendCtable encC encO resize wr flavOf t colData).1.cols p.1
        = some (colarr ++ convertData encC encO p.2 raw)) ∧
    (∀ name, name ∉ t.coldt.map Prod.fst →
      lookup (appendCtable encC encO resize wr flavOf t colData).1.cols name
        = lookup t.cols name) := by
  obtain ⟨L, hall⟩ := Option.isSome_iff_exists.mp hlenEq
  have hany : (t.coldt.any (fun p => (lookup colData p.1).isNone)) = false := by
    rw [List.any_eq_false]
    intro p hp
    obtain ⟨raw, hraw, _, _⟩ := hcond p hp
    simp [hraw]
  rcases hcd : t.coldt with _ | ⟨⟨c0, dt0⟩, rest⟩
  · exact absurd hcd hne
  rw [← hcd]
  have hc0mem : c0 ∈ t.cols.map Prod.fst := by
    rw [hkeys, hcd]; simp
  obtain ⟨col0, hcol0⟩ := Option.isSome_iff_exists.mp (lookup_isSome_iff.mpr hc0mem)
  obtain ⟨st', hloop, hcoldt'⟩ := appendLoop_ok encC encO resize wr colData t.coldt
    ⟨t.cols, t.coldt⟩
    (by
      intro p hp
      obtain ⟨raw, hraw, hwr, hosc⟩ := hcond p hp
      refine ⟨raw, hraw, ?_, hwr, hosc⟩
      rw [lookup_isSome_iff]
      show p.1 ∈ t.cols.map Prod.fst
      rw [hkeys]
      exact List.mem_map.mpr ⟨p, hp, rfl⟩)
  obtain ⟨hframe, hmem⟩ := appendLoop_none_inv encC encO resize wr colData t.coldt
    ⟨t.cols, t.coldt⟩ st' hloop hnd
  obtain ⟨hfstL, _⟩ := appendLoop_inv encC encO resize wr colData t.coldt ⟨t.cols, t.coldt⟩
  rw [hloop] at hfstL
  have hres : appendCtable encC encO resize wr flavOf t colData
      = ({ coldt := st'.coldt, flavor := some fl, cols := st'.cols }, none) := by
    rw [hcd] at hloop
    rw [appendCtable, hall]
    simp only
    rw [if_neg (show ¬ ((t.coldt.any (fun p => (lookup colData p.1).isNone)) = true) by
      rw [hany]; simp)]
    rw [hcd]
    simp only
    rw [hcol0]
    simp only
    rw [hloop]
    simp only
    rw [hflav]
  rw [hres]
  refine ⟨rfl, ?_, by rw [hflav], hfstL, ?_, ?_⟩
  · show st'.coldt = t.coldt
    exact hcoldt'
  · intro p hp
    exact hmem p hp
  · intro name hname
    exact hframe name hname

theorem appendCtable_none_inv {encC encO : Cell → Cell} {resize : Bool}
    {wr : String → Option Nat} {flavOf : String → Bool} {t : Table}
    {colData : List (String × List Cell)}
    (h : (appendCtable encC encO resize wr flavOf t colData).2 = none) :
    ∃ st' L, allLenEq colData = some L ∧
      appendLoop encC encO resize wr colData t.coldt ⟨t.cols, t.coldt⟩ = (st', none) ∧
      (appendCtable encC encO resize wr flavOf t colData).1.cols = st'.cols := by
  rcases hall : allLenEq colData with _ | L
  · rw [appendCtable, hall] at h
    simp at h
  · by_cases hany : (t.coldt.any fun p => (lookup colData p.1).isNone) = true
    · rw [appendCtable, hall] at h
      simp only at h
      rw [if_pos hany] at h
      simp at h
    · rcases hcd : t.coldt with _ | ⟨⟨c0, dt0⟩, rest⟩
      · rw [appendCtable, hall] at h
        simp only at h
        rw [if_neg hany, hcd] at h
        simp at h
      · rcases hc0 : lookup t.cols c0 with _ | col0
        · rw [appendCtable, hall] at h
          simp only at h
          rw [if_neg hany, hcd] at h
          simp only at h
          rw [← hcd, hc0] at h
          simp at h
        · rcases hloop : appendLoop encC encO resize wr colData t.coldt
              ⟨t.cols, t.coldt⟩ with ⟨st1, e?⟩
          rcases e? with _ | e
          · rw [hcd] at hloop
            refine ⟨st1, L, rfl, hloop, ?_⟩
            rw [appendCtable, hall]
            simp only
            rw [if_neg hany, hcd]
            simp only
            rw [← hcd, hc0]
            simp only
            rw [hcd, hloop]
          · exfalso
            rw [hcd] at hloop
            rw [appendCtable, hall] at h
            simp only at h
            rw [if_neg hany, hcd] at h
            simp only at h
            rw [← hcd, hc0] at h
            simp only at h
            rw [hcd, hloop] at h
            simp only at h
            rcases hres : restoreCols col0.length ((c0, dt0) :: rest) st1.cols
              with _ | cols' <;> rw [hres] at h <;> simp at h

theorem convertData_length (encC encO : Cell → Cell) (dt : Dtype) (data : List Cell) :
    (convertData encC encO dt data).length = data.length := by
  cases dt <;> simp [convertData]

theorem mapM_mem_inv {α β : Type} (g : α → Option β) :
    ∀ (l : List α) (out : List β), l.mapM g = some out → ∀ y ∈ out, ∃ x ∈ l, g x = some y := by
  intro l
  induction l with
  | nil =>
    intro out h y hy
    rw [List.mapM_nil] at h
    cases h
    simp at hy
  | cons a rest ih =>
    intro out h y hy
    rw [List.mapM_cons] at h
    rcases hga : g a with _ | b <;> rw [hga] at h
    · exact absurd h (by simp)
    · rcases hrest : rest.mapM g with _ | bs <;> rw [hrest] at h
      · exact absurd h (by simp)
      · have hout : b :: bs = out := by simpa using h
        subst hout
        rcases List.mem_cons.mp hy with rfl | hy'
        · exact ⟨a, List.mem_cons_self _ _, hga⟩
        · obtain ⟨x, hx, hgx⟩ := ih bs hrest y hy'
          exact ⟨x, List.mem_cons_of_mem _ hx, hgx⟩

theorem createColumnFromData_length {encO : Cell → Cell} {colData arr : List Cell}
    {dt : Dtype} (h : createColumnFromData encO colData = some (arr, dt)) :
    arr.length = colData.length := by
  rcases colData with _ | ⟨c, cs⟩
  · simp [createColumnFromData] at h
  · rcases c with v | b
    · simp only [createColumnFromData, Option.some.injEq, Prod.mk.injEq] at h
      rw [← h.1]
    · simp only [createColumnFromData, Option.some.injEq, Prod.mk.injEq] at h
      rw [← h.1]
      simp

theorem foldl_set_length {v : Cell} (inds : List Nat) :
    ∀ (a : List Cell), (inds.foldl (fun a i => a.set i v) a).length = a.length := by
  induction inds with
  | nil => intro a; rfl
  | cons i rest ih =>
    intro a
    rw [List.foldl_cons, ih]
    exact List.length_set a i v

theorem foldl_set2_length (ps : List (Nat × Cell)) :
    ∀ (a : List Cell), (ps.foldl (fun a p => a.set p.1 p.2) a).length = a.length := by
  induction ps with
  | nil => intro a; rfl
  | cons p rest ih =>
    intro a
    rw [List.foldl_cons, ih]
    exact List.length_set a p.1 p.2

theorem setAtInds_length {arr out : List Cell} {inds : List Nat} {data : List Cell}
    (h : setAtInds arr inds data = some out) : out.length = arr.length := by
  unfold setAtInds at h
  split at h
  · exact absurd h (by simp)
  · split at h
    · rw [Option.some.injEq] at h
      rw [← h]; exact foldl_set_length inds arr
    · split at h
      · rw [Option.some.injEq] at h
        rw [← h]; exact foldl_set2_length _ arr
      · exact absurd h (by simp)

theorem equalLens_mono {old new : List (String × List Cell)}
    (ho : equalLens old) (h : ∀ p ∈ new, ∃ q ∈ old, p.2.length = q.2.length) :
    equalLens new := by
  intro p hp p' hp'
  obtain ⟨q, hq, hpq⟩ := h p hp
  obtain ⟨q', hq', hpq'⟩ := h p' hp'
  rw [hpq, hpq', ho q hq q' hq']

theorem mem_setCol {β : Type} {l : List (String × β)} {k : String} {v : β} :
    ∀ p ∈ setCol l k v, p ∈ l ∨ p = (k, v) := by
  induction l with
  | nil => intro p hp; rw [setCol] at hp; exact absurd hp (List.not_mem_nil p)
  | cons a l ih =>
    intro p hp
    rw [setCol] at hp
    rcases List.mem_cons.mp hp with heq | hp'
    · by_cases h : a.1 = k
      · rw [if_pos h] at heq
        right; rw [heq, h]
      · rw [if_neg h] at heq
        left; rw [heq]; exact List.mem_cons_self a l
    · rcases ih p hp' with h1 | h2
      · left; exact List.mem_cons_of_mem a h1
      · right; exact h2

theorem removeArrayRows_length {α : Type} {node res : List α} {rm : List Nat}
    (h : removeArrayRows node rm = some res) :
    res.length = node.length - (sortedSet rm).length := by
  rw [removeArrayRows] at h
  split at h
  · exact absurd h (by simp)
  · rw [Option.bind_eq_some] at h
    obtain ⟨node', hmv, h⟩ := h
    split at h
    · exact absurd h (by simp)
    · rw [Option.some.injEq] at h
      rw [← h, List.length_take]
      have hlen := applyMoves_length _ _ _ hmv
      omega

theorem updateWriteCol_none_lenPres {encC encO : Cell → Cell} {resize : Bool}
    {inds : List Nat} {staleColdt : List (String × Dtype)} {st st' : LoopSt}
    {col : String} {raw : List Cell}
    (h : updateWriteCol encC encO resize inds staleColdt st col raw = (st', none)) :
    ∀ p ∈ st'.cols, ∃ q ∈ st.cols, p.2.length = q.2.length := by
  rw [updateWriteCol] at h
  rcases hdt : lookup staleColdt col with _ | dt <;> rw [hdt] at h
  · exact absurd (congrArg Prod.snd h) (by simp)
  · simp only at h
    rcases hac : lookup st.cols col with _ | colarr <;> rw [hac] at h
    · exact absurd (congrArg Prod.snd h) (by simp)
    · simp only at h
      by_cases hosc : (dt.oscWidth).isSome
      · rw [if_pos hosc] at h
        have hfst := safeColStrChange_fst_fst st.coldt col colarr dt
          (convertData encC encO dt raw) resize
        rcases hr : (safeColStrChange st.coldt col colarr dt
            (convertData encC encO dt raw) resize).2 with _ | e <;> rw [hr] at h
        · simp only at h
          rcases hsi : setAtInds (safeColStrChange st.coldt col colarr dt
              (convertData encC encO dt raw) resize).1.1 inds
              (convertData encC encO dt raw) with _ | arr <;> rw [hsi] at h
          · exact absurd (congrArg Prod.snd h) (by simp)
          · have harr : arr.length = colarr.length := by
              rw [setAtInds_length hsi, hfst]
            have h1 := congrArg (fun x => x.1.cols) h
            simp only at h1
            intro p hp
            rw [← h1] at hp
            rcases mem_setCol p hp with hp1 | rfl
            · rcases mem_setCol p hp1 with hp2 | rfl
              · exact ⟨p, hp2, rfl⟩
              · exact ⟨(col, colarr), mem_of_lookup_eq_some hac, by rw [hfst]⟩
            · exact ⟨(col, colarr), mem_of_lookup_eq_some hac, harr⟩
        · exact absurd (congrArg Prod.snd h) (by simp)
      · rw [if_neg hosc] at h
        rcases hsi : setAtInds colarr inds (convertData encC encO dt raw)
            with _ | arr <;> rw [hsi] at h
        · exact absurd (congrArg Prod.snd h) (by simp)
        · have h1 := congrArg (fun x => x.1.cols) h
          simp only at h1
          intro p hp
          rw [← h1] at hp
          rcases mem_setCol p hp with hp1 | rfl
          · exact ⟨p, hp1, rfl⟩
          · exact ⟨(col, colarr), mem_of_lookup_eq_some hac, setAtInds_length hsi⟩

theorem updateLoop_lenPres {encC encO : Cell → Cell} {resize : Bool}
    {inds : List Nat} {staleColdt : List (String × Dtype)} :
    ∀ (colData : List (String × List Cell)) (st st' : LoopSt),
      updateLoop encC encO resize inds staleColdt colData st = (st', none) →
      ∀ p ∈ st'.cols, ∃ q ∈ st.cols, p.2.length = q.2.length := by
  intro colData
  induction colData with
  | nil =>
    intro st st' h
    rw [updateLoop] at h
    cases h
    exact fun p hp => ⟨p, hp, rfl⟩
  | cons a rest ih =>
    intro st st' h
    rcases a with ⟨col, raw⟩
    rw [updateLoop] at h
    rcases hw : updateWriteCol encC encO resize inds staleColdt st col raw with ⟨st1, e?⟩
    rw [hw] at h
    rcases e? with _ | e
    · simp only at h
      intro p hp
      obtain ⟨q, hq, hpq⟩ := ih st1 st' h p hp
      obtain ⟨q', hq', hq'q⟩ := updateWriteCol_none_lenPres hw q hq
      exact ⟨q', hq', hpq.trans hq'q⟩
    · simp only at h
      exact absurd (congrArg Prod.snd h) (by simp)

theorem c1_update {encC encO : Cell → Cell} {resize : Bool} {t t' : Table}
    {q : List Clause} {colData : List (String × List Cell)}
    (heq : equalLens t.cols)
    (h : updateCtable encC encO resize t q colData = (t', none)) :
    equalLens t'.cols := by
  rw [updateCtable] at h
  split at h
  · exact absurd (congrArg Prod.snd h) (by simp)
  · split at h
    · exact absurd (congrArg Prod.snd h) (by simp)
    · rcases hall : allLenEq colData with _ | L <;> rw [hall] at h
      · exact absurd (congrArg Prod.snd h) (by simp)
      · simp only at h
        rcases hm : filterInds t.cols q with _ | mask <;> rw [hm] at h
        · exact absurd (congrArg Prod.snd h) (by simp)
        · simp only at h
          split at h
          · exact absurd (congrArg Prod.snd h) (by simp)
          · rcases hloop : updateLoop encC encO resize (nonzero mask) t.coldt colData
                ⟨t.cols, t.coldt⟩ with ⟨st1, e?⟩
            rw [hloop] at h
            have he : e? = none := congrArg Prod.snd h
            subst he
            have hc : st1.cols = t'.cols := by
              simpa using congrArg (fun x => x.1.cols) h
            rw [← hc]
            exact equalLens_mono heq (updateLoop_lenPres colData _ _ hloop)

theorem deleteLoop_none_inv (inds : List Nat) :
    ∀ (coldt : List (String × Dtype)) (cols cols' : List (String × List Cell)),
      deleteLoop inds coldt cols = (cols', none) →
      (coldt.map Prod.fst).Nodup →
      (∀ name, name ∉ coldt.map Prod.fst → lookup cols' name = lookup cols name) ∧
      cols'.map Prod.fst = cols.map Prod.fst ∧
      (∀ p ∈ coldt, ∃ arr arr', lookup cols p.1 = some arr ∧
        removeArrayRows arr inds = some arr' ∧ lookup cols' p.1 = some arr') := by
  intro coldt
  induction coldt with
  | nil =>
    intro cols cols' h _
    rw [deleteLoop] at h
    cases h
    exact ⟨fun _ _ => rfl, rfl, by simp⟩
  | cons a rest ih =>
    intro cols cols' h hnd
    rcases a with ⟨c, dt⟩
    rw [deleteLoop] at h
    rcases hac : lookup cols c with _ | arr <;> rw [hac] at h
    · exact absurd (congrArg Prod.snd h) (by simp)
    · simp only at h
      rcases hrm : removeArrayRows arr inds with _ | arr' <;> rw [hrm] at h
      · exact absurd (congrArg Prod.snd h) (by simp)
      · simp only at h
        have hnd' : (rest.map Prod.fst).Nodup := (List.nodup_cons.mp (by simpa using hnd)).2
        have hcnot : c ∉ rest.map Prod.fst := (List.nodup_cons.mp (by simpa using hnd)).1
        obtain ⟨hframe, hfst, hmem⟩ := ih (setCol cols c arr') cols' h hnd'
        have hcm : c ∈ cols.map Prod.fst := by
          rw [← lookup_isSome_iff, hac]; rfl
        refine ⟨?_, hfst.trans (map_fst_setCol _ _ _), ?_⟩
        · intro name hname
          have hn1 : name ≠ c := by intro he; exact hname (by simp [he])
          have hn2 : name ∉ rest.map Prod.fst := by intro he; exact hname (by simp [he])
          rw [hframe name hn2, lookup_setCol_ne _ hn1]
        · intro p hp
          rcases List.mem_cons.mp hp with rfl | hp'
          · refine ⟨arr, arr', hac, hrm, ?_⟩
            show lookup cols' c = _
            rw [hframe c hcnot]
            exact lookup_setCol_self _ hcm
          · obtain ⟨a1, a1', ha1, hra, hfin⟩ := hmem p hp'
            have hpc : p.1 ≠ c := by
              intro he
              exact hcnot (he ▸ List.mem_map.mpr ⟨p, hp', rfl⟩)
            rw [lookup_setCol_ne _ hpc] at ha1
            exact ⟨a1, a1', ha1, hra, hfin⟩

theorem c1_delete {t t' : Table} {q : List Clause} {rows : List Nat}
    (hkeys : t.cols.map Prod.fst = t.coldt.map Prod.fst)
    (hnd : (t.coldt.map Prod.fst).Nodup)
    (heq : equalLens t.cols)
    (h : deleteRows t q rows = (t', none)) :
    equalLens t'.cols := by
  rw [deleteRows] at h
  split at h
  · exact absurd (congrArg Prod.snd h) (by simp)
  · split at h
    · exact absurd (congrArg Prod.snd h) (by simp)
    · rcases hi : (if rows ≠ [] then some rows
          else (filterInds t.cols q).map nonzero) with _ | inds <;> rw [hi] at h
      · exact absurd (congrArg Prod.snd h) (by simp)
      · simp only at h
        split at h
        · have ht : t = t' := congrArg Prod.fst h
          rw [← ht]; exact heq
        · rcases hloop : deleteLoop inds t.coldt t.cols with ⟨cols1, e?⟩
          rw [hloop] at h
          have he : e? = none := congrArg Prod.snd h
          subst he
          have hc : cols1 = t'.cols := by
            simpa using congrArg (fun x => x.1.cols) h
          obtain ⟨hframe, hfst, hmem⟩ := deleteLoop_none_inv inds t.coldt t.cols cols1 hloop hnd
          rw [← hc]
          have hnd1 : (cols1.map Prod.fst).Nodup := by
            rw [hfst, hkeys]; exact hnd
          intro p hp p' hp'
          have hkey : ∀ r : String × List Cell, r ∈ cols1 →
              ∃ arr arr', lookup t.cols r.1 = some arr ∧
                removeArrayRows arr inds = some arr' ∧ r.2 = arr' := by
            intro r hr
            have hrk : r.1 ∈ t.coldt.map Prod.fst := by
              rw [← hkeys, ← hfst]
              exact List.mem_map.mpr ⟨r, hr, rfl⟩
            obtain ⟨pd, hpd, hpd1⟩ := List.mem_map.mp hrk
            obtain ⟨arr, arr', ha, hra, hfin⟩ := hmem pd hpd
            rw [hpd1] at ha hfin
            have hlr := lookup_of_nodup_mem hnd1 hr
            rw [hfin] at hlr
            exact ⟨arr, arr', ha, hra, (Option.some.inj hlr).symm⟩
          obtain ⟨a1, a1', ha1, hra1, hp2⟩ := hkey p hp
          obtain ⟨b1, b1', hb1, hrb1, hp2'⟩ := hkey p' hp'
          rw [hp2, hp2', removeArrayRows_length hra1, removeArrayRows_length hrb1]
          rw [heq (p.1, a1) (mem_of_lookup_eq_some ha1) (p'.1, b1) (mem_of_lookup_eq_some hb1)]

theorem c1_append {encC encO : Cell → Cell} {resize : Bool} {wr : String → Option Nat}
    {flavOf : String → Bool} {t t' : Table} {colData : List (String × List Cell)}
    (hkeys : t.cols.map Prod.fst = t.coldt.map Prod.fst)
    (hnd : (t.coldt.map Prod.fst).Nodup)
    (heq : equalLens t.cols)
    (h : appendCtable encC encO resize wr flavOf t colData = (t', none)) :
    equalLens t'.cols := by
  have h2 : (appendCtable encC encO resize wr flavOf t colData).2 = none := by rw [h]
  obtain ⟨st', L, hall, hloop, hcols⟩ := appendCtable_none_inv h2
  rw [h] at hcols
  obtain ⟨hframe, hmem⟩ := appendLoop_none_inv encC encO resize wr colData
    t.coldt ⟨t.cols, t.coldt⟩ st' hloop hnd
  have hfst := (appendLoop_inv encC encO resize wr colData t.coldt ⟨t.cols, t.coldt⟩).1
  rw [hloop] at hfst
  have hnd' : (st'.cols.map Prod.fst).Nodup := by
    have : st'.cols.map Prod.fst = t.coldt.map Prod.fst := by
      rw [hfst]; exact hkeys
    rw [this]; exact hnd
  have hlenL := (allLenEq_some hall).2
  have hkey : ∀ r : String × List Cell, r ∈ st'.cols →
      ∃ colarr, lookup t.cols r.1 = some colarr ∧ r.2.length = colarr.length + L := by
    intro r hr
    have hrk : r.1 ∈ t.coldt.map Prod.fst := by
      rw [← hkeys, ← hfst]
      exact List.mem_map.mpr ⟨r, hr, rfl⟩
    obtain ⟨pd, hpd, hpd1⟩ := List.mem_map.mp hrk
    obtain ⟨raw, colarr, hraw, harr, hfin⟩ := hmem pd hpd
    rw [hpd1] at hraw harr hfin
    have hlr := lookup_of_nodup_mem hnd' hr
    rw [hfin] at hlr
    have hr2 : r.2 = colarr ++ convertData encC encO pd.2 raw := (Option.some.inj hlr).symm
    refine ⟨colarr, harr, ?_⟩
    rw [hr2, List.length_append, convertData_length,
      hlenL (r.1, raw) (mem_of_lookup_eq_some hraw)]
  rw [hcols]
  intro p hp p' hp'
  obtain ⟨a1, ha1, hl1⟩ := hkey p hp
  obtain ⟨b1, hb1, hl2⟩ := hkey p' hp'
  rw [hl1, hl2,
    heq (p.1, a1) (mem_of_lookup_eq_some ha1) (p'.1, b1) (mem_of_lookup_eq_some hb1)]

theorem c1_appendNew {encO : Cell → Cell} {flavOf : String → Bool}
    {colData : List (String × List Cell)} {t' : Table}
    (h : appendCtableNew encO flavOf colData = (some t', none)) :
    equalLens t'.cols := by
  rw [appendCtableNew] at h
  rcases hall : allLenEq colData with _ | L <;> rw [hall] at h
  · exact absurd (congrArg Prod.fst h) (by simp)
  · simp only at h
    rcases hcr : colData.mapM (fun p =>
        (createColumnFromData encO p.2).map (fun r => (p.1, r))) with _ | created <;>
      rw [hcr] at h
    · exact absurd (congrArg Prod.fst h) (by simp)
    · simp only at h
      have ht : t'.cols = created.map (fun q => (q.1, q.2.1)) := by
        have := congrArg Prod.fst h
        simp only [Option.some.injEq] at this
        rw [← this]
      rw [ht]
      have hlenL := (allLenEq_some hall).2
      intro p hp p' hp'
      have hkey : ∀ r : String × List Cell,
          r ∈ created.map (fun q : String × (List Cell × Dtype) => (q.1, q.2.1)) →
          r.2.length = L := by
        intro r hr
        obtain ⟨cq, hcq, hcq1⟩ := List.mem_map.mp hr
        obtain ⟨x, hx, hgx⟩ := mapM_mem_inv _ colData created hcr cq hcq
        rw [Option.map_eq_some'] at hgx
        obtain ⟨rr, hrr, hrrq⟩ := hgx
        have hc2 : createColumnFromData encO x.2 = some cq.2 := by
          rw [hrr]; rw [← hrrq]
        rcases hq2 : cq.2 with ⟨arr, dtv⟩
        rw [hq2] at hc2
        have hlen := createColumnFromData_length hc2
        rw [← hcq1]
        simp only [hq2]
        rw [hlen, hlenL x hx]
      rw [hkey p hp, hkey p' hp']

theorem equalLens_append_one {cols : List (String × List Cell)} {c0 name : String}
    {a0 arr : List Cell}
    (heq : equalLens cols) (h0 : (c0, a0) ∈ cols) (hlen : arr.length = a0.length) :
    equalLens (cols ++ [(name, arr)]) := by
  intro p hp p' hp'
  rcases List.mem_append.mp hp with hp1 | hp1 <;>
    rcases List.mem_append.mp hp' with hp2 | hp2
  · exact heq p hp1 p' hp2
  · have : p' = (name, arr) := by simpa using hp2
    rw [this]
    exact (heq p hp1 (c0, a0) h0).trans hlen.symm
  · have : p = (name, arr) := by simpa using hp1
    rw [this]
    exact hlen.trans (heq (c0, a0) h0 p' hp2)
  · have h1 : p = (name, arr) := by simpa using hp1
    have h2 : p' = (name, arr) := by simpa using hp2
    rw [h1, h2]

theorem addColFinish_none_inv {t t' : Table} {colName : String} {dt : Dtype}
    {arr : List Cell} {flavNumpy : Bool}
    (h : addColFinish t colName dt arr flavNumpy = (t', none)) :
    t'.cols = t.cols ++ [(colName, arr)] := by
  rw [addColFinish] at h
  rcases hf : t.flavor with _ | fl <;> rw [hf] at h
  · exact absurd (congrArg Prod.snd h) (by simp)
  · simp only at h
    have := congrArg (fun x => x.1.cols) h
    simpa using this.symm

theorem c1_addcol {encC encO : Cell → Cell} {t t' : Table} {colName : String}
    {colData : List Cell} {dtype? : Option Dtype} {flavNumpy : Bool}
    (heq : equalLens t.cols)
    (h : addColumn encC encO t colName colData dtype? flavNumpy = (t', none)) :
    equalLens t'.cols := by
  rw [addColumn.eq_def] at h
  split at h
  · exact absurd (congrArg Prod.snd h) (by simp)
  · rename_i c0 dt0 rest hcd
    rcases hc0 : lookup t.cols c0 with _ | a0 <;> rw [hc0] at h
    · exact absurd (congrArg Prod.snd h) (by simp)
    · simp only at h
      split at h
      · exact absurd (congrArg Prod.snd h) (by simp)
      · next hlen =>
        split at h
        · exact absurd (congrArg Prod.snd h) (by simp)
        · have hmem0 : (c0, a0) ∈ t.cols := mem_of_lookup_eq_some hc0
          have hlen' : a0.length = colData.length := by omega
          rcases hdt : dtype? with _ | dt <;> rw [hdt] at h
          · -- dtype inferred from the data
            rcases hcr : createColumnFromData encO colData with _ | ad <;> rw [hcr] at h
            · exact absurd (congrArg Prod.snd h) (by simp)
            · rcases had : ad with ⟨arr, dtv⟩
              rw [had] at hcr h
              simp only at h
              rw [addColFinish_none_inv h]
              exact equalLens_append_one heq hmem0
                ((createColumnFromData_length hcr).trans hlen'.symm)
          · simp only at h
            by_cases hosc : (dt.oscWidth).isSome
            · rw [if_pos hosc] at h
              have hfst := safeColStrChange_fst_fst t.coldt colName []
                dt (convertData encC encO dt colData) true
              rcases hr : (safeColStrChange t.coldt colName [] dt
                  (convertData encC encO dt colData) true).2 with _ | e <;> rw [hr] at h
              · simp only at h
                rw [addColFinish_none_inv h]
                apply equalLens_append_one heq hmem0
                rw [hfst]
                simp only [List.nil_append]
                rw [convertData_length, hlen']
              · exact absurd (congrArg Prod.snd h) (by simp)
            · rw [if_neg hosc] at h
              rw [addColFinish_none_inv h]
              apply equalLens_append_one heq hmem0
              rw [convertData_length, hlen']

theorem c1_widen (coldt : List (String × Dtype)) (colName : String) (col : List Cell)
    (dt : Dtype) (data : List Cell) (resize : Bool) :
    (safeColStrChange coldt colName col dt data resize).1.1.length = col.length := by
  rw [safeColStrChange_fst_fst]

/-- C1: every public mutating operation preserves the all-columns-same-length
invariant: a successful append to an existing table, a successful append
creating a new table, a successful update, a successful row deletion and a
successful column addition each leave every column array of the table with
one common length, and the widening routine never changes a column's length —
so no caller can observe two columns of one table with different lengths. -/
theorem c1_length_invariant :
    (∀ (encC encO : Cell → Cell) (resize : Bool) (wr : String → Option Nat)
        (flavOf : String → Bool) (t t' : Table) (colData : List (String × List Cell)),
      t.cols.map Prod.fst = t.coldt.map Prod.fst →
      (t.coldt.map Prod.fst).Nodup → equalLens t.cols →
      appendCtable encC encO resize wr flavOf t colData = (t', none) →
      equalLens t'.cols) ∧
    (∀ (encO : Cell → Cell) (flavOf : String → Bool)
        (colData : List (String × List Cell)) (t' : Table),
      appendCtableNew encO flavOf colData = (some t', none) → equalLens t'.cols) ∧
    (∀ (encC encO : Cell → Cell) (resize : Bool) (t t' : Table) (q : List Clause)
        (colData : List (String × List Cell)),
      equalLens t.cols →
      updateCtable encC encO resize t q colData = (t', none) → equalLens t'.cols) ∧
    (∀ (t t' : Table) (q : List Clause) (rows : List Nat),
      t.cols.map Prod.fst = t.coldt.map Prod.fst →
      (t.coldt.map Prod.fst).Nodup → equalLens t.cols →
      deleteRows t q rows = (t', none) → equalLens t'.cols) ∧
    (∀ (encC encO : Cell → Cell) (t t' : Table) (colName : String) (colData : List Cell)
        (dtype? : Option Dtype) (flavNumpy : Bool),
      equalLens t.cols →
      addColumn encC encO t colName colData dtype? flavNumpy = (t', none) →
      equalLens t'.cols) ∧
    (∀ (coldt : List (String × Dtype)) (colName : String) (col : List Cell)
        (dt : Dtype) (data : List Cell) (resize : Bool),
      (safeColStrChange coldt colName col dt data resize).1.1.length = col.length) :=
  ⟨fun _ _ _ _ _ _ _ _ hk hn he hs => c1_append hk hn he hs,
   fun _ _ _ _ hs => c1_appendNew hs,
   fun _ _ _ _ _ _ _ he hs => c1_update he hs,
   fun _ _ _ _ hk hn he hs => c1_delete hk hn he hs,
   fun _ _ _ _ _ _ _ _ he hs => c1_addcol he hs,
   c1_widen⟩

theorem c1_length_invariant_witness :
    equalLens [("a", [Cell.num 1, Cell.num 2])] ∧
    equalLens [("b", [Cell.num 3])] ∧
    equalLens [("a", [Cell.num 5])] ∧
    equalLens [("a", [Cell.num 1])] ∧
    equalLens [("a", [Cell.num 1]), ("b", [Cell.num 7])] ∧
    (safeColStrChange [] "x" [Cell.num 1] Dtype.i [] true).1.1.length
      = ([Cell.num 1] : List Cell).length := by
  refine ⟨?_, ?_, ?_, ?_, ?_, ?_⟩
  · exact c1_length_invariant.1 (fun c => c) (fun c => c) false (fun _ => none)
      (fun _ => true)
      { coldt := [("a", Dtype.i)], flavor := some [("a", true)],
        cols := [("a", [Cell.num 1])] }
      { coldt := [("a", Dtype.i)], flavor := some [("a", true)],
        cols := [("a", [Cell.num 1, Cell.num 2])] }
      [("a", [Cell.num 2])] rfl (by decide) (by simp only [equalLens]; decide) rfl
  · exact c1_length_invariant.2.1 (fun c => c) (fun _ => true)
      [("b", [Cell.num 3])]
      { coldt := [("b", Dtype.i)], flavor := some [("b", true)],
        cols := [("b", [Cell.num 3])] } rfl
  · exact c1_length_invariant.2.2.1 (fun c => c) (fun c => c) true
      { coldt := [("a", Dtype.i)], flavor := some [("a", true)],
        cols := [("a", [Cell.num 1])] }
      { coldt := [("a", Dtype.i)], flavor := some [("a", true)],
        cols := [("a", [Cell.num 5])] }
      [Clause.single ⟨"a", Oper.ge, Cell.num 0⟩]
      [("a", [Cell.num 5])] (by simp only [equalLens]; decide) rfl
  · exact c1_length_invariant.2.2.2.1
      { coldt := [("a", Dtype.i)], flavor := some [("a", true)],
        cols := [("a", [Cell.num 1, Cell.num 2])] }
      { coldt := [("a", Dtype.i)], flavor := some [("a", true)],
        cols := [("a", [Cell.num 1])] }
      [] [1] rfl (by decide) (by simp only [equalLens]; decide) rfl
  · exact c1_length_invariant.2.2.2.2.1 (fun c => c) (fun c => c)
      { coldt := [("a", Dtype.i)], flavor := some [("a", true)],
        cols := [("a", [Cell.num 1])] }
      { coldt := [("a", Dtype.i), ("b", Dtype.i)],
        flavor := some [("a", true), ("b", false)],
        cols := [("a", [Cell.num 1]), ("b", [Cell.num 7])] }
      "b" [Cell.num 7] none false (by simp only [equalLens]; decide) rfl
  · exact c1_length_invariant.2.2.2.2.2 [] "x" [Cell.num 1] Dtype.i [] true

theorem c9_append_extra_columns_witness :
    (appendCtable (fun c => c) (fun c => c) false (fun _ => none) (fun _ => true)
      { coldt := [("a", Dtype.i)], flavor := some [("a", false)],
        cols := [("a", [Cell.num 1])] }
      [("a", [Cell.num 2]), ("zz", [Cell.num 9])]).2 = none ∧
    (appendCtable (fun c => c) (fun c => c) false (fun _ => none) (fun _ => true)
      { coldt := [("a", Dtype.i)], flavor := some [("a", false)],
        cols := [("a", [Cell.num 1])] }
      [("a", [Cell.num 2]), ("zz", [Cell.num 9])]).1.coldt = [("a", Dtype.i)] ∧
    (appendCtable (fun c => c) (fun c => c) false (fun _ => none) (fun _ => true)
      { coldt := [("a", Dtype.i)], flavor := some [("a", false)],
        cols := [("a", [Cell.num 1])] }
      [("a", [Cell.num 2]), ("zz", [Cell.num 9])]).1.flavor = some [("a", false)] ∧
    lookup (appendCtable (fun c => c) (fun c => c) false (fun _ => none) (fun _ => true)
      { coldt := [("a", Dtype.i)], flavor := some [("a", false)],
        cols := [("a", [Cell.num 1])] }
      [("a", [Cell.num 2]), ("zz", [Cell.num 9])]).1.cols "a"
        = some [Cell.num 1, Cell.num 2] ∧
    lookup (appendCtable (fun c => c) (fun c => c) false (fun _ => none) (fun _ => true)
      { coldt := [("a", Dtype.i)], flavor := some [("a", false)],
        cols := [("a", [Cell.num 1])] }
      [("a", [Cell.num 2]), ("zz", [Cell.num 9])]).1.cols "zz" = none := by
  have h := c9_append_extra_columns (fun c => c) (fun c => c) false (fun _ => none) (fun _ => true)
    { coldt := [("a", Dtype.i)], flavor := some [("a", false)],
      cols := [("a", [Cell.num 1])] }
    [("a", [Cell.num 2]), ("zz", [Cell.num 9])] [("a", false)]
    (by decide) (by decide) rfl (by decide)
    (by
      intro p hp
      have hp' : p = ("a", Dtype.i) := by simpa using hp
      subst hp'
      exact ⟨[Cell.num 2], rfl, rfl, fun w hw => by simp [Dtype.oscWidth] at hw⟩)
    (by decide) (by decide)
  obtain ⟨raw, colarr, h1, h2, h3⟩ := h.2.2.2.2.1 ("a", Dtype.i) (by decide)
  have hraw : raw = [Cell.num 2] :=
    Option.some.inj (h1.symm.trans (show _ = some [Cell.num 2] from rfl))
  have hcol : colarr = [Cell.num 1] :=
    Option.some.inj (h2.symm.trans (show _ = some [Cell.num 1] from rfl))
  subst hraw hcol
  refine ⟨h.1, h.2.1, h.2.2.1, h3, ?_⟩
  rw [h.2.2.2.2.2 "zz" (by decide)]
  rfl

end SimpleH5
